import Mathlib

/-!
Verification development for the scene-graph core of the GamePlay engine
(repository files `gameplay/src/Node.h`, `gameplay/src/AudioSource.h`).

The repository ships only the header declarations of `Node` and
`AudioSource`; the method bodies are not part of the shown sources.  The
operational definitions below are therefore modelled from the
specification (`spec.md`), faithful to its words, with the header
declarations (signatures, default arguments, documented contracts) as
the remaining source authority.

Modelling conventions:
 * 4x4 matrices are `Matrix (Fin 4) (Fin 4) ℚ` (column-vector
   convention, translation in the last column), so all matrix algebra is
   exact and computable.
 * The intrusive tree container (`Tree<Node>`, an external collaborator
   per spec section 1) is modelled as an arena: nodes live at indices
   `0 .. len-1` of a total function `node : Nat → NodeState`, a node's
   parent is an optional index, and nodes are numbered so that a parent
   always precedes its children (`parent < child`), which represents
   every forest up to renumbering.  Re-parenting (`setParent n p`)
   accordingly requires `p < n` and is a no-op otherwise.
 * The C++ `_dirtyBits` bit mask is modelled as individual Boolean
   flags (`worldDirty`, `boundsDirty`, plus the transform-local
   `localDirty`); the camera-relative matrices are recomputed
   unconditionally from the world matrix and the active camera, which
   spec section 4.3 explicitly allows.
 * The mutable union `_bounds` is modelled as a tagged variant, as spec
   section 9 prescribes.
-/

namespace GamePlaySpec

/-! ### Vectors, quaternions and matrices -/

/-- A 3-component vector with exact rational entries (models `Vector3`). -/
structure Vec3 where
  x : ℚ
  y : ℚ
  z : ℚ
deriving DecidableEq

/-- A quaternion (models `Quaternion`), used for local rotations. -/
structure Quat where
  w : ℚ
  x : ℚ
  y : ℚ
  z : ℚ
deriving DecidableEq

/-- 4x4 rational matrix (models `Matrix`). -/
abbrev Mat4 := Matrix (Fin 4) (Fin 4) ℚ

/-- Translation matrix: identity with the vector in the last column. -/
def tMat (v : Vec3) : Mat4 := Matrix.of fun i j =>
  if i = j then 1
  else if (j : Nat) = 3 then
    (if (i : Nat) = 0 then v.x else if (i : Nat) = 1 then v.y else if (i : Nat) = 2 then v.z else 0)
  else 0

/-- Scale matrix: diagonal with the three scale factors. -/
def sMat (v : Vec3) : Mat4 := Matrix.of fun i j =>
  if i = j then
    (if (i : Nat) = 0 then v.x else if (i : Nat) = 1 then v.y else if (i : Nat) = 2 then v.z else 1)
  else 0

/-- Rotation matrix of a (unit) quaternion, the standard polynomial formula. -/
def rMat (q : Quat) : Mat4 := Matrix.of fun i j =>
  match (i : Nat), (j : Nat) with
  | 0, 0 => 1 - 2 * (q.y ^ 2 + q.z ^ 2)
  | 0, 1 => 2 * (q.x * q.y - q.w * q.z)
  | 0, 2 => 2 * (q.x * q.z + q.w * q.y)
  | 1, 0 => 2 * (q.x * q.y + q.w * q.z)
  | 1, 1 => 1 - 2 * (q.x ^ 2 + q.z ^ 2)
  | 1, 2 => 2 * (q.y * q.z - q.w * q.x)
  | 2, 0 => 2 * (q.x * q.z - q.w * q.y)
  | 2, 1 => 2 * (q.y * q.z + q.w * q.x)
  | 2, 2 => 1 - 2 * (q.x ^ 2 + q.y ^ 2)
  | 3, 3 => 1
  | _, _ => 0

/-- Hamilton product of two quaternions (models `Quaternion::multiply`). -/
def quatMul (a b : Quat) : Quat :=
  ⟨a.w * b.w - a.x * b.x - a.y * b.y - a.z * b.z,
   a.w * b.x + a.x * b.w + a.y * b.z - a.z * b.y,
   a.w * b.y - a.x * b.z + a.y * b.w + a.z * b.x,
   a.w * b.z + a.x * b.y - a.y * b.x + a.z * b.w⟩

/-- Apply a 4x4 matrix to a point (homogeneous coordinate 1). -/
def applyPoint (m : Mat4) (v : Vec3) : Vec3 :=
  ⟨m 0 0 * v.x + m 0 1 * v.y + m 0 2 * v.z + m 0 3,
   m 1 0 * v.x + m 1 1 * v.y + m 1 2 * v.z + m 1 3,
   m 2 0 * v.x + m 2 1 * v.y + m 2 2 * v.z + m 2 3⟩

/-- Computable matrix inverse over ℚ via the adjugate formula (used for the
inverse-flavoured camera matrices; returns the zero matrix on a singular
input, which never matters for the claims below). -/
def matInv (m : Mat4) : Mat4 := (m.det)⁻¹ • m.adjugate

/-! ### Bounding volumes

Bounding-volume computation for specific geometry is external per spec
section 1; only the cached slot, its tag and its invalidation are in
scope.  The transport of a volume by the world matrix is modelled by
transforming its defining points. -/

/-- Axis-aligned bounding box (models `BoundingBox`). -/
structure BBox where
  bmin : Vec3
  bmax : Vec3
deriving DecidableEq

/-- Bounding sphere (models `BoundingSphere`). -/
structure BSphere where
  center : Vec3
  radius : ℚ
deriving DecidableEq

/-- The empty/degenerate box. -/
def emptyBox : BBox := ⟨⟨0, 0, 0⟩, ⟨0, 0, 0⟩⟩

/-- The empty/degenerate sphere. -/
def emptySphere : BSphere := ⟨⟨0, 0, 0⟩, 0⟩

/-- Transport of a box into world space (external geometry detail). -/
def transformBox (m : Mat4) (b : BBox) : BBox := ⟨applyPoint m b.bmin, applyPoint m b.bmax⟩

/-- Transport of a sphere into world space (external geometry detail). -/
def transformSphere (m : Mat4) (b : BSphere) : BSphere := ⟨applyPoint m b.center, b.radius⟩

/-! ### Identifier search (`findNode` / `findNodes`)

Modelled from the spec (section 4.4) and the declarations at
`Node.h:92` and `Node.h:105`: depth-first search by identifier over the
node hierarchy.  The hierarchy is viewed as a rose tree of identifiers;
the search never touches transforms, caches or resources, so this view
is exact for it. -/

/-- A node hierarchy as seen by the identifier search: an identifier
plus the list of child subtrees in child-list order. -/
inductive NTree where
  | node (id : String) (children : List NTree)

/-- The identifier of the root of a subtree. -/
def NTree.nid : NTree → String
  | .node i _ => i

/-- The child list of the root of a subtree. -/
def NTree.childList : NTree → List NTree
  | .node _ cs => cs

/-- Identifier matching: exact string equality when `exactMatch` is
true, otherwise "node id starts with the given id" (`Node.h:87-88`,
prefix comparison on the character sequences). -/
def idMatches (exactMatch : Bool) (pat : String) (s : String) : Bool :=
  if exactMatch then s == pat else List.isPrefixOf pat.data s.data

mutual

/-- Modelled from the spec: `Node::findNode(id, recursive, exactMatch)`
(`Node.h:92`; body not in the shown sources).  Checks this node's own id
first, then the children in child-list order; when `recursive` is true it
descends into each child before moving to the next sibling, otherwise
only direct children are scanned.  Returns the first match, or `none`. -/
def NTree.find (pat : String) (recursive exact : Bool) : NTree → Option NTree
  | .node i cs =>
    if idMatches exact pat i then some (.node i cs)
    else NTree.findInList pat recursive exact cs

/-- The child-list scan of `NTree.find`, in child-list order. -/
def NTree.findInList (pat : String) (recursive exact : Bool) : List NTree → Option NTree
  | [] => none
  | c :: cs =>
    match (if recursive then NTree.find pat recursive exact c
           else if idMatches exact pat c.nid then some c else none) with
    | some r => some r
    | none => NTree.findInList pat recursive exact cs

end

mutual

/-- Modelled from the spec: the collection of matches gathered by
`Node::findNodes` (`Node.h:105`; body not in the shown sources), in the
same visitation order as `NTree.find`. -/
def NTree.findAll (pat : String) (recursive exact : Bool) : NTree → List NTree
  | .node i cs =>
    (if idMatches exact pat i then [NTree.node i cs] else []) ++
      NTree.findAllInList pat recursive exact cs

/-- The child-list scan of `NTree.findAll`, in child-list order. -/
def NTree.findAllInList (pat : String) (recursive exact : Bool) : List NTree → List NTree
  | [] => []
  | c :: cs =>
    (if recursive then NTree.findAll pat recursive exact c
     else if idMatches exact pat c.nid then [c] else []) ++
      NTree.findAllInList pat recursive exact cs

end

/-- Modelled from the spec: `Node::findNodes` appends all matches to the
caller's vector and returns the number of matches found. -/
def NTree.findNodes (t : NTree) (pat : String) (acc : List NTree)
    (recursive exact : Bool) : List NTree × Nat :=
  let ms := t.findAll pat recursive exact
  (acc ++ ms, ms.length)

/-- `findNode` with the declaration's default arguments
`recursive = true, exactMatch = true` (`Node.h:92`). -/
def NTree.findDefault (t : NTree) (pat : String) : Option NTree :=
  t.find pat true true

/-- `findNodes` with the declaration's default arguments
`recursive = true, exactMatch = true` (`Node.h:105`). -/
def NTree.findNodesDefault (t : NTree) (pat : String) (acc : List NTree) :
    List NTree × Nat :=
  t.findNodes pat acc true true

mutual

/-- Pre-order listing of the subtrees of a tree: the node itself first,
then each child's pre-order listing in child-list order. -/
def NTree.preorder : NTree → List NTree
  | .node i cs => NTree.node i cs :: NTree.preorderList cs

/-- Pre-order listing of a forest. -/
def NTree.preorderList : List NTree → List NTree
  | [] => []
  | c :: cs => c.preorder ++ NTree.preorderList cs

end

/-! ### Audio source creation (`AudioSource::create`) -/

/-- A decoded audio buffer handle (external collaborator; only its
identity matters to this core). -/
structure AudioBuffer where
  handle : Nat
deriving DecidableEq

/-- Playback state of an audio source (`AudioSource.h:31-37`). -/
inductive ASState where
  | INITIAL
  | PLAYING
  | PAUSED
  | STOPPED
deriving DecidableEq

/-- The state owned by an `AudioSource` (`AudioSource.h:165-171`). -/
structure AudioSourceSt where
  buffer : AudioBuffer
  looped : Bool
  gain : ℚ
  pitch : ℚ
  state : ASState
deriving DecidableEq

/-- Modelled from the spec: decoding the file at a path into an audio
buffer is external (audio codecs are out of scope); it is represented as
a map from paths to optionally-decoded buffers, `none` meaning the file
is unreadable or unsupported. -/
def AudioEnv := String → Option AudioBuffer

/-- Modelled from the spec (section 7) and `AudioSource.h:39-46`:
`AudioSource::create(path)` yields a null/absent result, rather than
raising, exactly when the source cannot be created from the file;
otherwise it returns a newly created source holding the decoded buffer
(fresh sources are not looped, have unit gain and pitch, and are in the
`INITIAL` state). -/
def audioSourceCreate (env : AudioEnv) (path : String) : Option AudioSourceSt :=
  match env path with
  | none => none
  | some b => some { buffer := b, looped := false, gain := 1, pitch := 1, state := .INITIAL }

/-! ### Node state

Modelled from the spec (sections 3, 4.1-4.3) and the member list at
`Node.h:345-360`.  `Node` composes the `Transform` members (translation,
rotation, scale, cached local matrix and its dirty flag, spec 4.1) with
the node members (`_world`, `_dirtyBits`, resources, bounds). -/

/-- Types of bounding volumes for nodes (`Node.h:45-50`). -/
inductive BoundsType where
  | NONE
  | BOX
  | SPHERE
deriving DecidableEq

/-- The bounds cache: the union at `Node.h:355-359` as a tagged variant
(spec section 9), mutually exclusive by construction. -/
inductive BoundsCache where
  | noneB
  | boxB (b : BBox)
  | sphereB (sp : BSphere)
deriving DecidableEq

/-- The empty cache variant selected by a bounds type. -/
def emptyCacheFor : BoundsType → BoundsCache
  | .NONE => .noneB
  | .BOX => .boxB emptyBox
  | .SPHERE => .sphereB emptySphere

/-- The five kinds of attachable resources (`Node.h:347-351`). -/
inductive RKind where
  | camera
  | light
  | model
  | audioSource
  | particleEmitter
deriving DecidableEq

/-- The matrices supplied by the scene's active camera (an external
collaborator per spec section 6: the camera resource supplies the view
and projection matrices and their inverses). -/
structure CameraData where
  view : Mat4
  inverseView : Mat4
  projection : Mat4
  viewProjection : Mat4
  inverseViewProjection : Mat4

/-- The state of one node: `Transform` components plus the `Node`
members of `Node.h:345-360`.  Resources are identified by numeric
handles; reference counts are tracked in the scene state. -/
structure NodeState where
  id : String
  parent : Option Nat
  t : Vec3
  r : Quat
  sc : Vec3
  localMat : Mat4
  localDirty : Bool
  world : Mat4
  worldDirty : Bool
  camera : Option Nat
  light : Option Nat
  model : Option Nat
  audioSource : Option Nat
  particleEmitter : Option Nat
  boundsType : BoundsType
  bounds : BoundsCache
  boundsDirty : Bool

/-- A freshly created node (`Node::create`): identity transform, no
parent, no resources, `NONE` bounds type, every cache dirty. -/
def defaultNode : NodeState where
  id := ""
  parent := none
  t := ⟨0, 0, 0⟩
  r := ⟨1, 0, 0, 0⟩
  sc := ⟨1, 1, 1⟩
  localMat := 1
  localDirty := true
  world := 1
  worldDirty := true
  camera := none
  light := none
  model := none
  audioSource := none
  particleEmitter := none
  boundsType := .NONE
  bounds := .noneB
  boundsDirty := true

instance : Inhabited NodeState := ⟨defaultNode⟩

/-- The scene-graph state: an arena of `len` nodes (indices `0..len-1`
of the total function `node`; parents precede children), the shared
resource reference counts, the scene's active camera, the external
model-geometry environment, and a counter of world-matrix
recomputations (the spec's section 8 "recomputation counter"). -/
structure St where
  len : Nat
  node : Nat → NodeState
  refCount : RKind → Nat → Nat
  activeCamera : Option CameraData
  modelBox : Nat → Option BBox
  modelSphere : Nat → Option BSphere
  count : Nat

/-- The local matrix derived from the transform components:
translation * rotation * scale (spec section 3: always reconstructible
from position/rotation/scale). -/
def localSpecOf (nd : NodeState) : Mat4 := tMat nd.t * rMat nd.r * sMat nd.sc

/-- `Transform::getMatrix()`: the cached local matrix, recomputed from
the components only when a component changed since the last computation
(spec section 4.1). -/
def curLocal (nd : NodeState) : Mat4 := if nd.localDirty then localSpecOf nd else nd.localMat

/-- The current local matrix of the node at an index (identity for an
out-of-range index). -/
def localAt (s : St) (n : Nat) : Mat4 := if n < s.len then localSpecOf (s.node n) else 1

/-- The parent index of the node at an index. -/
def parentOf (s : St) (n : Nat) : Option Nat := if n < s.len then (s.node n).parent else none

/-- Replace the node at index `n` by a rewritten version (the arena
update underlying every single-node mutation). -/
def editNodeAt (s : St) (n : Nat) (f : NodeState → NodeState) : St :=
  { s with node := fun m => if m = n then f (s.node n) else s.node m }

/-- The mathematical world matrix: the product of the local matrices
along the ancestor chain (spec section 3 invariant: world = parent's
world * local; root: local).  Fuel-indexed; since a parent always
precedes its children, fuel `n+1` always suffices for node `n`. -/
def specWorldF (s : St) : Nat → Nat → Mat4
  | 0, n => localAt s n
  | fuel + 1, n =>
    match parentOf s n with
    | none => localAt s n
    | some p => specWorldF s fuel p * localAt s n

/-- The mathematical world matrix of node `n`. -/
def specWorld (s : St) (n : Nat) : Mat4 := specWorldF s (n + 1) n

/-- Whether `a` is `m` itself or a proper ancestor of `m`, i.e. whether
`m` belongs to the subtree rooted at `a` (fuel-indexed parent walk). -/
def isAncSelfB (s : St) : Nat → Nat → Nat → Bool
  | 0, a, m => a = m
  | fuel + 1, a, m =>
    if a = m then true
    else
      match parentOf s m with
      | none => false
      | some p => isAncSelfB s fuel a p

/-- Store a freshly recomputed world matrix at node `n`: caches the
local matrix (`Transform::getMatrix`'s side effect), stores the world
matrix, clears the node's `WORLD_MATRIX` dirty bit, and bumps the
recomputation counter. -/
def writeWorld (s : St) (n : Nat) (w : Mat4) : St :=
  { s with
    node := fun m =>
      if m = n then
        { s.node n with
          localMat := curLocal (s.node n)
          localDirty := false
          world := w
          worldDirty := false }
      else s.node m
    count := s.count + 1 }

/-- Modelled from the spec (section 4.3): `Node::getWorldMatrix()`
(`Node.h:124`; body not in the shown sources).  If the node's
`WORLD_MATRIX` bit is dirty, recompute the world matrix as the parent's
(recursively resolved) world matrix times this node's local matrix
(root: the local matrix alone), store it and clear the bit; otherwise
return the cached value unchanged.  Fuel-indexed recursion up the
parent chain; the public wrapper `getWorld` supplies fuel `s.len`,
which always suffices since parents precede children. -/
def getWorldF : Nat → Nat → St → Mat4 × St
  | 0, _, s => (1, s)
  | fuel + 1, n, s =>
    if n < s.len then
      if (s.node n).worldDirty then
        match (s.node n).parent with
        | none => (curLocal (s.node n), writeWorld s n (curLocal (s.node n)))
        | some p =>
          let r := getWorldF fuel p s
          (r.1 * curLocal (r.2.node n), writeWorld r.2 n (r.1 * curLocal (r.2.node n)))
      else ((s.node n).world, s)
    else (1, s)

/-- `Node::getWorldMatrix()` on the scene state: returns the matrix and
the state with the refreshed caches. -/
def getWorld (n : Nat) (s : St) : Mat4 × St := getWorldF s.len n s

/-- Modelled from the spec (sections 4.2/4.3): eagerly mark the
`WORLD_MATRIX` bit of node `a` and of every descendant of `a` dirty
(the recursive subtree walk fired by `transformChanged` /
`parentChanged` / `childAdded`). -/
def markSubtreeDirty (s : St) (a : Nat) : St :=
  { s with
    node := fun m =>
      if isAncSelfB s s.len a m then { s.node m with worldDirty := true } else s.node m }

/-- The local-transform mutations of `Transform` (spec section 4.1):
setters and cumulative translate/rotate/scale edits. -/
inductive LocalEdit where
  | setTranslationTo (v : Vec3)
  | setRotationTo (q : Quat)
  | setScaleTo (v : Vec3)
  | translateBy (v : Vec3)
  | rotateBy (q : Quat)
  | scaleBy (v : Vec3)

/-- Apply a local-transform mutation to the transform components and
mark the transform's own local matrix dirty. -/
def applyLocalEdit (e : LocalEdit) (nd : NodeState) : NodeState :=
  match e with
  | .setTranslationTo v => { nd with t := v, localDirty := true }
  | .setRotationTo q => { nd with r := q, localDirty := true }
  | .setScaleTo v => { nd with sc := v, localDirty := true }
  | .translateBy v =>
    { nd with t := ⟨nd.t.x + v.x, nd.t.y + v.y, nd.t.z + v.z⟩, localDirty := true }
  | .rotateBy q => { nd with r := quatMul nd.r q, localDirty := true }
  | .scaleBy v =>
    { nd with sc := ⟨nd.sc.x * v.x, nd.sc.y * v.y, nd.sc.z * v.z⟩, localDirty := true }

/-- Modelled from the spec (sections 4.1 and 4.3): a local-transform
setter on node `n`.  The setter updates the components and then — still
inside the setter call, via the synchronous `transformChanged`
listener — marks `n`'s own `WORLD_MATRIX` bit and the `WORLD_MATRIX`
bit of every descendant of `n` dirty.  No-op on an invalid index. -/
def stepSetLocal (n : Nat) (e : LocalEdit) (s : St) : St :=
  if n < s.len then markSubtreeDirty (editNodeAt s n (applyLocalEdit e)) n
  else s

/-- Guard for re-parenting: the new parent must precede the child in
the arena numbering (which keeps the hierarchy a forest), or be `none`
(detach to root). -/
def parentArgOk (n : Nat) (po : Option Nat) : Bool :=
  match po with
  | none => true
  | some q => q < n

/-- Modelled from the spec (section 4.2): re-parent node `n` (the
container moves the child; `parentChanged`/`childAdded` then re-mark
`n`'s and every descendant's world-matrix caches dirty, since the
ancestor chain changed, while local transforms are untouched).  No-op
on an invalid index or a guard violation. -/
def stepSetParent (n : Nat) (po : Option Nat) (s : St) : St :=
  if n < s.len ∧ parentArgOk n po = true then
    markSubtreeDirty (editNodeAt s n (fun nd => { nd with parent := po })) n
  else s

/-- `Node::create` (`Node.h:333`) followed by handing the node to the
scene: appends a fresh node (a root, fully dirty) to the arena. -/
def stepAddNode (i : String) (s : St) : St :=
  { s with
    len := s.len + 1
    node := fun m => if m = s.len then { defaultNode with id := i } else s.node m }

/-- The resource slot of a node selected by kind (`Node.h:347-351`). -/
def getRes (k : RKind) (nd : NodeState) : Option Nat :=
  match k with
  | .camera => nd.camera
  | .light => nd.light
  | .model => nd.model
  | .audioSource => nd.audioSource
  | .particleEmitter => nd.particleEmitter

/-- Write the resource slot of a node selected by kind. -/
def setRes (k : RKind) (r : Option Nat) (nd : NodeState) : NodeState :=
  match k with
  | .camera => { nd with camera := r }
  | .light => { nd with light := r }
  | .model => { nd with model := r }
  | .audioSource => { nd with audioSource := r }
  | .particleEmitter => { nd with particleEmitter := r }

/-- The node-state rewrite performed by a resource setter: write the
slot of kind `k`; attaching/detaching a model additionally marks
`BOUNDS` dirty. -/
def resApply (k : RKind) (r : Option Nat) (nd : NodeState) : NodeState :=
  if k = RKind.model then { setRes k r nd with boundsDirty := true } else setRes k r nd

/-- Increment the shared reference count of one resource. -/
def refCountInc (f : RKind → Nat → Nat) (k : RKind) (i : Nat) : RKind → Nat → Nat :=
  fun k' i' => if k' = k ∧ i' = i then f k' i' + 1 else f k' i'

/-- Decrement (release) the shared reference count of one resource. -/
def refCountDec (f : RKind → Nat → Nat) (k : RKind) (i : Nat) : RKind → Nat → Nat :=
  fun k' i' => if k' = k ∧ i' = i then f k' i' - 1 else f k' i'

/-- Release the node's ownership share of the old occupant, if any. -/
def releaseOld (f : RKind → Nat → Nat) (k : RKind) (old : Option Nat) : RKind → Nat → Nat :=
  match old with
  | some o => refCountDec f k o
  | none => f

/-- Acquire a share of the newly attached resource, if any. -/
def acquireNew (f : RKind → Nat → Nat) (k : RKind) (r : Option Nat) : RKind → Nat → Nat :=
  match r with
  | some j => refCountInc f k j
  | none => f

/-- Modelled from the spec (section 4.4) and `Node.h:197-273`:
`setCamera`/`setLight`/`setModel`/`setAudioSource`/`setParticleEmitter`.
Attaching the resource already attached is a no-op; otherwise the node
releases its ownership share of the old occupant and acquires a share
of the new one (`NULL` detaches).  Attaching or detaching a model
additionally invalidates `BOUNDS`.  No other dirty-bit side effect. -/
def stepSetRes (k : RKind) (n : Nat) (r : Option Nat) (s : St) : St :=
  if n < s.len then
    if getRes k (s.node n) = r then s
    else
      { editNodeAt s n (resApply k r) with
        refCount := acquireNew (releaseOld s.refCount k (getRes k (s.node n))) k r }
  else s

/-- Modelled from the spec (section 3 invariants) and `Node.h:309`:
`setBoundsType` switches the bounds-type tag; switching to a different
type discards the previous cache (replacing it with the empty variant
of the new type) and marks `BOUNDS` dirty. -/
def stepSetBoundsType (n : Nat) (bt : BoundsType) (s : St) : St :=
  if n < s.len then
    if bt = (s.node n).boundsType then s
    else
      editNodeAt s n
        (fun nd => { nd with boundsType := bt, bounds := emptyCacheFor bt, boundsDirty := true })
  else s

/-- Modelled from the spec (section 4.3) and `Node.h:286`:
the world-space box of `getBoundingBox`, recombined from the node's
world matrix and the attached model's local-space box; the
empty/degenerate box when no model with volume data is attached. -/
def boxValue (s2 : St) (n : Nat) (w : Mat4) : BBox :=
  match (s2.node n).model with
  | none => emptyBox
  | some i =>
    match s2.modelBox i with
    | none => emptyBox
    | some mb => transformBox w mb

/-- `Node::getBoundingBox` (`Node.h:286`): lazily recompute on
`BOUNDS`-dirty, degenerate otherwise (see `boxValue`). -/
def queryBoundingBox (n : Nat) (s : St) : BBox × St :=
  if n < s.len then
    if (s.node n).boundsType = BoundsType.BOX then
      if (s.node n).boundsDirty then
        (boxValue (getWorld n s).2 n (getWorld n s).1,
         editNodeAt (getWorld n s).2 n
           (fun nd =>
             { nd with
               bounds := .boxB (boxValue (getWorld n s).2 n (getWorld n s).1)
               boundsDirty := false }))
      else
        (match (s.node n).bounds with | .boxB b => b | _ => emptyBox, s)
    else (emptyBox, s)
  else (emptyBox, s)

/-- The world-space sphere recombined from the model's local-space
sphere (symmetric to `boxValue`). -/
def sphereValue (s2 : St) (n : Nat) (w : Mat4) : BSphere :=
  match (s2.node n).model with
  | none => emptySphere
  | some i =>
    match s2.modelSphere i with
    | none => emptySphere
    | some ms => transformSphere w ms

/-- Modelled from the spec (section 4.3) and `Node.h:299`:
`Node::getBoundingSphere`, symmetric to `getBoundingBox`. -/
def queryBoundingSphere (n : Nat) (s : St) : BSphere × St :=
  if n < s.len then
    if (s.node n).boundsType = BoundsType.SPHERE then
      if (s.node n).boundsDirty then
        (sphereValue (getWorld n s).2 n (getWorld n s).1,
         editNodeAt (getWorld n s).2 n
           (fun nd =>
             { nd with
               bounds := .sphereB (sphereValue (getWorld n s).2 n (getWorld n s).1)
               boundsDirty := false }))
      else
        (match (s.node n).bounds with | .sphereB b => b | _ => emptySphere, s)
    else (emptySphere, s)
  else (emptySphere, s)

/-! ### Camera-relative matrix queries

Modelled from the spec (section 4.3) and `Node.h:133-181`: each query
is derived from the node's world matrix combined with the active
camera's matrices, recomputed unconditionally (which spec 4.3 allows);
when no active camera exists in the owning scene the query fails by
returning an identity matrix. -/

/-- `Node::getViewMatrix` (`Node.h:141`). -/
def getViewMatrixQ (_n : Nat) (s : St) : Mat4 × St :=
  match s.activeCamera with
  | none => (1, s)
  | some c => (c.view, s)

/-- `Node::getInverseViewMatrix` (`Node.h:149`). -/
def getInverseViewMatrixQ (_n : Nat) (s : St) : Mat4 × St :=
  match s.activeCamera with
  | none => (1, s)
  | some c => (c.inverseView, s)

/-- `Node::getProjectionMatrix` (`Node.h:157`). -/
def getProjectionMatrixQ (_n : Nat) (s : St) : Mat4 × St :=
  match s.activeCamera with
  | none => (1, s)
  | some c => (c.projection, s)

/-- `Node::getViewProjectionMatrix` (`Node.h:165`). -/
def getViewProjectionMatrixQ (_n : Nat) (s : St) : Mat4 × St :=
  match s.activeCamera with
  | none => (1, s)
  | some c => (c.viewProjection, s)

/-- `Node::getInverseViewProjectionMatrix` (`Node.h:173`). -/
def getInverseViewProjectionMatrixQ (_n : Nat) (s : St) : Mat4 × St :=
  match s.activeCamera with
  | none => (1, s)
  | some c => (c.inverseViewProjection, s)

/-- `Node::getWorldViewProjectionMatrix` (`Node.h:181`): the camera's
view-projection times the node's (lazily resolved) world matrix. -/
def getWorldViewProjectionMatrixQ (n : Nat) (s : St) : Mat4 × St :=
  match s.activeCamera with
  | none => (1, s)
  | some c =>
    let r := getWorld n s
    (c.viewProjection * r.1, r.2)

/-- `Node::getInverseTransposeWorldViewMatrix` (`Node.h:133`): the
transpose of the inverse of view * world (used to transform normals). -/
def getInverseTransposeWorldViewMatrixQ (n : Nat) (s : St) : Mat4 × St :=
  match s.activeCamera with
  | none => (1, s)
  | some c =>
    let r := getWorld n s
    ((matInv (c.view * r.1)).transpose, r.2)

/-! ### The operation alphabet and reachable states -/

/-- The mutations and cache-refreshing queries of the scene graph. -/
inductive Op where
  | addNode (i : String)
  | setLocal (n : Nat) (e : LocalEdit)
  | setParent (n : Nat) (po : Option Nat)
  | queryWorld (n : Nat)
  | setResource (k : RKind) (n : Nat) (r : Option Nat)
  | setBounds (n : Nat) (bt : BoundsType)
  | queryBox (n : Nat)
  | querySphere (n : Nat)
  | setActiveCamera (c : Option CameraData)

/-- One step of the scene-graph state machine. -/
def stepOp : Op → St → St
  | .addNode i, s => stepAddNode i s
  | .setLocal n e, s => stepSetLocal n e s
  | .setParent n po, s => stepSetParent n po s
  | .queryWorld n, s => (getWorld n s).2
  | .setResource k n r, s => stepSetRes k n r s
  | .setBounds n bt, s => stepSetBoundsType n bt s
  | .queryBox n, s => (queryBoundingBox n s).2
  | .querySphere n, s => (queryBoundingSphere n s).2
  | .setActiveCamera c, s => { s with activeCamera := c }

/-- Run a sequence of operations. -/
def run (ops : List Op) (s : St) : St := ops.foldl (fun t op => stepOp op t) s

/-- The empty initial scene over a given external geometry environment:
no nodes, no references held, no active camera. -/
def initSt (mb : Nat → Option BBox) (ms : Nat → Option BSphere) : St where
  len := 0
  node := fun _ => defaultNode
  refCount := fun _ _ => 0
  activeCamera := none
  modelBox := mb
  modelSphere := ms
  count := 0

/-- A state is reachable when some sequence of operations produces it
from an empty scene (over some external geometry environment). -/
def Reachable (s : St) : Prop :=
  ∃ mb ms ops, s = run ops (initSt mb ms)

/-- Whether an operation is non-invalidating for node `n` in the state
it is applied to.  Per the spec, the invalidating mutations for a
node's world-matrix cache are exactly the local-transform edits and
hierarchy edits that affect the node or one of its ancestors, i.e.
whose dirty cascade covers `n` (the edited node is `n` itself or an
ancestor of `n`).  Every other operation — edits of unrelated
subtrees, node creation, resource attach/detach, bounds-type switches,
bounds queries, camera changes, and world-matrix queries on any node —
is non-invalidating. -/
def nonInvalidatingB (n : Nat) (op : Op) (t : St) : Bool :=
  match op with
  | .setLocal m _ => !isAncSelfB t t.len m n
  | .setParent m _ => !isAncSelfB t t.len m n
  | _ => true

/-- Whether a whole operation sequence is free of invalidating
mutations for node `n`, each operation judged in the state it is
applied to. -/
def nonInvalidatingRun (n : Nat) : List Op → St → Bool
  | [], _ => true
  | op :: ops, t => nonInvalidatingB n op t && nonInvalidatingRun n ops (stepOp op t)

/-! ### Invariants -/

/-- The bounds cache variant is the one selected by the bounds type:
exactly one of the box/sphere caches is live, or neither for `NONE`. -/
def cacheMatches (nd : NodeState) : Prop :=
  match nd.boundsType, nd.bounds with
  | .NONE, .noneB => True
  | .BOX, .boxB _ => True
  | .SPHERE, .sphereB _ => True
  | _, _ => False

/-- Equality of the local-transform components of two node states
("the local transform is unchanged"). -/
def localPartsEq (a b : NodeState) : Prop :=
  a.t = b.t ∧ a.r = b.r ∧ a.sc = b.sc

/-- Equality of everything except the mutable caches (world matrix,
dirty flags, cached local matrix): hierarchy queries never change the
logical content of the scene. -/
def coreEq (a b : NodeState) : Prop :=
  a.id = b.id ∧ a.parent = b.parent ∧ a.t = b.t ∧ a.r = b.r ∧ a.sc = b.sc ∧
  a.camera = b.camera ∧ a.light = b.light ∧ a.model = b.model ∧
  a.audioSource = b.audioSource ∧ a.particleEmitter = b.particleEmitter ∧
  a.boundsType = b.boundsType ∧ a.bounds = b.bounds ∧ a.boundsDirty = b.boundsDirty

/-- Two states with the same logical content (only caches and the
recomputation counter may differ). -/
def SameCore (s s' : St) : Prop :=
  s.len = s'.len ∧ ∀ m, coreEq (s.node m) (s'.node m)

/-- The well-formedness invariant of reachable scene states.

`ordered`: parents precede children (so every parent chain terminates).
`localInv`: a clean transform cache holds the matrix of the components.
`worldRoot`/`worldParent`: spec section 3 — if a node's `WORLD_MATRIX`
bit is clear, the cached world matrix is current: it equals the
parent's (also clean) cached world matrix times the node's current
local matrix, or the local matrix alone at a root.
`boundsMatch`: the live bounds-cache variant is the one selected by the
bounds type.  `boundsEmpty`: a clean bounds cache with no attached
model holds the empty volume. -/
structure WF (s : St) : Prop where
  ordered : ∀ n, n < s.len → ∀ p, (s.node n).parent = some p → p < n
  localInv : ∀ n, n < s.len → (s.node n).localDirty = false →
    (s.node n).localMat = localSpecOf (s.node n)
  worldRoot : ∀ n, n < s.len → (s.node n).worldDirty = false →
    (s.node n).parent = none → (s.node n).world = localSpecOf (s.node n)
  worldParent : ∀ n p, n < s.len → (s.node n).worldDirty = false →
    (s.node n).parent = some p →
    (s.node p).worldDirty = false ∧ (s.node n).world = (s.node p).world * localSpecOf (s.node n)
  boundsMatch : ∀ n, n < s.len → cacheMatches (s.node n)
  boundsEmpty : ∀ n, n < s.len → (s.node n).boundsDirty = false → (s.node n).model = none →
    (s.node n).bounds = emptyCacheFor (s.node n).boundsType

/-! ### Concrete example scenes -/

/-- The tree of the spec's section 8 `findNodes` scenario: "arm_left"
and "arm_right" under different ancestors. -/
def armTree : NTree :=
  .node "root"
    [.node "torso_l" [.node "arm_left" []],
     .node "torso_r" [.node "arm_right" []]]

/-- An external geometry environment with no volume data. -/
def mbEx : Nat → Option BBox := fun _ => none

/-- An external geometry environment with no volume data. -/
def msEx : Nat → Option BSphere := fun _ => none

/-- A concrete operation sequence: four nodes `A = 0`, `B = 1`,
`N = 2` (child of `A`), `M = 3` (child of `N`), with a translation on
`N`. -/
def opsExBase : List Op :=
  [.addNode "A", .addNode "B", .addNode "N", .addNode "M",
   .setParent 2 (some 0), .setParent 3 (some 2),
   .setLocal 2 (.setTranslationTo ⟨1, 0, 0⟩)]

/-- The concrete reachable scene produced by `opsExBase`. -/
def sExBase : St := run opsExBase (initSt mbEx msEx)

/-- The spec's section 8 scenario: root `R` (identity transform) with
child `C` translated by `(1,0,0)`. -/
def opsScen : List Op :=
  [.addNode "R", .addNode "C", .setParent 1 (some 0),
   .setLocal 1 (.setTranslationTo ⟨1, 0, 0⟩)]

/-- The scene of the section 8 scenario. -/
def sScen : St := run opsScen (initSt mbEx msEx)

/-- The section 8 scenario after translating `R` to `(0,5,0)`. -/
def sScen2 : St := stepSetLocal 0 (.setTranslationTo ⟨0, 5, 0⟩) sScen

/-- A varied intervening history that contains no invalidating
mutation for node `3` of `sExBase` (whose ancestor chain is
`3 → 2 → 0`): a local edit on the unrelated node `1`, resource,
bounds-type, bounds-query and camera operations, a world-matrix query
on another node, node creation, and a re-parenting of the unrelated
node `1`. -/
def opsLazyEx : List Op :=
  [.setLocal 1 (.setTranslationTo ⟨7, 0, 0⟩),
   .setResource .camera 0 (some 4),
   .setBounds 0 .BOX,
   .queryWorld 0,
   .querySphere 1,
   .addNode "E",
   .setParent 1 (some 0),
   .setActiveCamera none]

/-! ## Theorems -/

/-! ### The identifier search against its pre-order specification -/

mutual

theorem find_eq_preorder (pat : String) (ex : Bool) :
    ∀ t : NTree,
      t.find pat true ex = t.preorder.find? (fun u => idMatches ex pat u.nid)
  | .node i cs => by
    rw [NTree.find, NTree.preorder]
    by_cases h : idMatches ex pat i = true
    · rw [if_pos h, List.find?_cons_of_pos _ (by simpa [NTree.nid] using h)]
    · rw [if_neg h, List.find?_cons_of_neg _ (by simpa [NTree.nid] using h),
        findInList_eq_preorderList pat ex cs]

theorem findInList_eq_preorderList (pat : String) (ex : Bool) :
    ∀ cs : List NTree,
      NTree.findInList pat true ex cs =
        (NTree.preorderList cs).find? (fun u => idMatches ex pat u.nid)
  | [] => rfl
  | c :: cs => by
    rw [NTree.findInList, NTree.preorderList, List.find?_append,
      if_pos rfl, find_eq_preorder pat ex c, findInList_eq_preorderList pat ex cs]
    cases (NTree.preorder c).find? (fun u => idMatches ex pat u.nid) <;> simp [Option.or]

end

mutual

theorem findAll_eq_preorder (pat : String) (ex : Bool) :
    ∀ t : NTree,
      t.findAll pat true ex = t.preorder.filter (fun u => idMatches ex pat u.nid)
  | .node i cs => by
    rw [NTree.findAll, NTree.preorder, List.filter_cons,
      findAllInList_eq_preorderList pat ex cs]
    by_cases h : idMatches ex pat i = true
    · rw [if_pos h, if_pos (by simpa [NTree.nid] using h)]
      rfl
    · rw [if_neg h, if_neg (by simpa [NTree.nid] using h)]
      rfl

theorem findAllInList_eq_preorderList (pat : String) (ex : Bool) :
    ∀ cs : List NTree,
      NTree.findAllInList pat true ex cs =
        (NTree.preorderList cs).filter (fun u => idMatches ex pat u.nid)
  | [] => rfl
  | c :: cs => by
    rw [NTree.findAllInList, NTree.preorderList, List.filter_append, if_pos rfl,
      findAll_eq_preorder pat ex c, findAllInList_eq_preorderList pat ex cs]

end

theorem findInList_false (pat : String) (ex : Bool) :
    ∀ cs : List NTree,
      NTree.findInList pat false ex cs = cs.find? (fun u => idMatches ex pat u.nid)
  | [] => rfl
  | c :: cs => by
    rw [NTree.findInList, if_neg (by simp)]
    by_cases h : idMatches ex pat c.nid = true
    · rw [if_pos h]
      exact (@List.find?_cons_of_pos NTree (fun u => idMatches ex pat u.nid) c cs h).symm
    · rw [if_neg h, findInList_false pat ex cs]
      exact (@List.find?_cons_of_neg NTree (fun u => idMatches ex pat u.nid) c cs h).symm

theorem find_false (pat : String) (ex : Bool) (t : NTree) :
    t.find pat false ex = (t :: t.childList).find? (fun u => idMatches ex pat u.nid) := by
  obtain ⟨i, cs⟩ := t
  rw [NTree.find, NTree.childList]
  by_cases h : idMatches ex pat i = true
  · rw [if_pos h, List.find?_cons_of_pos _ (by simpa [NTree.nid] using h)]
  · rw [if_neg h, List.find?_cons_of_neg _ (by simpa [NTree.nid] using h),
      findInList_false pat ex cs]

theorem findAllInList_false (pat : String) (ex : Bool) :
    ∀ cs : List NTree,
      NTree.findAllInList pat false ex cs = cs.filter (fun u => idMatches ex pat u.nid)
  | [] => rfl
  | c :: cs => by
    rw [NTree.findAllInList, if_neg (by simp), findAllInList_false pat ex cs, List.filter_cons]
    by_cases h : idMatches ex pat c.nid = true
    · rw [if_pos h, if_pos h]
      rfl
    · rw [if_neg h, if_neg h]
      rfl

theorem findAll_false (pat : String) (ex : Bool) (t : NTree) :
    t.findAll pat false ex = (t :: t.childList).filter (fun u => idMatches ex pat u.nid) := by
  obtain ⟨i, cs⟩ := t
  rw [NTree.findAll, NTree.childList, List.filter_cons, findAllInList_false pat ex cs]
  by_cases h : idMatches ex pat i = true
  · rw [if_pos h, if_pos (by simpa [NTree.nid] using h)]
    rfl
  · rw [if_neg h, if_neg (by simpa [NTree.nid] using h)]
    rfl

/-! ### Basic facts about the cache-refreshing world-matrix query -/

theorem writeWorld_len (s : St) (n : Nat) (w : Mat4) : (writeWorld s n w).len = s.len := rfl

theorem writeWorld_node_ne (s : St) (n : Nat) (w : Mat4) (m : Nat) (h : m ≠ n) :
    (writeWorld s n w).node m = s.node m := by
  simp [writeWorld, h]

theorem writeWorld_node_self (s : St) (n : Nat) (w : Mat4) :
    (writeWorld s n w).node n =
      { s.node n with
        localMat := curLocal (s.node n), localDirty := false, world := w, worldDirty := false } := by
  simp [writeWorld]

theorem getWorldF_len : ∀ (fuel n : Nat) (s : St), ((getWorldF fuel n s).2).len = s.len
  | 0, _, _ => rfl
  | fuel + 1, n, s => by
    rw [getWorldF]
    by_cases h : n < s.len
    · rw [if_pos h]
      by_cases hd : (s.node n).worldDirty
      · rw [if_pos hd]
        cases hp : (s.node n).parent with
        | none => rfl
        | some p => simpa using getWorldF_len fuel p s
      · rw [if_neg hd]
    · rw [if_neg h]

theorem getWorldF_invalid (fuel n : Nat) (s : St) (h : ¬ n < s.len) :
    getWorldF fuel n s = (1, s) := by
  cases fuel with
  | zero => rfl
  | succ fuel => rw [getWorldF, if_neg h]

theorem getWorldF_clean (fuel n : Nat) (s : St) (hf : 0 < fuel) (h : n < s.len)
    (hd : (s.node n).worldDirty = false) : getWorldF fuel n s = ((s.node n).world, s) := by
  cases fuel with
  | zero => exact absurd hf (by simp)
  | succ fuel => rw [getWorldF, if_pos h, if_neg (by simp [hd])]

theorem getWorldF_final (fuel n : Nat) (s : St) (hf : 0 < fuel) (h : n < s.len) :
    ((getWorldF fuel n s).2.node n).worldDirty = false ∧
      ((getWorldF fuel n s).2.node n).world = (getWorldF fuel n s).1 := by
  cases fuel with
  | zero => exact absurd hf (by simp)
  | succ fuel =>
    rw [getWorldF, if_pos h]
    by_cases hd : (s.node n).worldDirty
    · rw [if_pos hd]
      cases hp : (s.node n).parent with
      | none => simp [writeWorld_node_self]
      | some p => simp [writeWorld_node_self]
    · rw [if_neg hd]
      exact ⟨by simpa using hd, rfl⟩

/-! ### Congruence and stability of the world-matrix specification -/

theorem parentOf_some (s : St) (n p : Nat) (h : parentOf s n = some p) :
    n < s.len ∧ (s.node n).parent = some p := by
  by_cases hl : n < s.len
  · exact ⟨hl, by simpa [parentOf, hl] using h⟩
  · simp [parentOf, hl] at h

theorem coreEq_refl (a : NodeState) : coreEq a a := by
  simp [coreEq]

theorem coreEq_trans {a b c : NodeState} (h1 : coreEq a b) (h2 : coreEq b c) : coreEq a c := by
  obtain ⟨e1, e2, e3, e4, e5, e6, e7, e8, e9, e10, e11, e12, e13⟩ := h1
  obtain ⟨f1, f2, f3, f4, f5, f6, f7, f8, f9, f10, f11, f12, f13⟩ := h2
  exact ⟨e1.trans f1, e2.trans f2, e3.trans f3, e4.trans f4, e5.trans f5, e6.trans f6,
    e7.trans f7, e8.trans f8, e9.trans f9, e10.trans f10, e11.trans f11, e12.trans f12,
    e13.trans f13⟩

theorem localSpecOf_congr {a b : NodeState} (h : coreEq a b) : localSpecOf a = localSpecOf b := by
  obtain ⟨-, -, e3, e4, e5, -⟩ := h
  rw [localSpecOf, localSpecOf, e3, e4, e5]

theorem sameCore_refl (s : St) : SameCore s s := ⟨rfl, fun _ => coreEq_refl _⟩

theorem sameCore_trans {s1 s2 s3 : St} (h1 : SameCore s1 s2) (h2 : SameCore s2 s3) :
    SameCore s1 s3 :=
  ⟨h1.1.trans h2.1, fun m => coreEq_trans (h1.2 m) (h2.2 m)⟩

theorem writeWorld_sameCore (s : St) (n : Nat) (w : Mat4) : SameCore s (writeWorld s n w) := by
  refine ⟨rfl, fun m => ?_⟩
  by_cases h : m = n
  · subst h
    rw [writeWorld_node_self]
    simp [coreEq]
  · rw [writeWorld_node_ne s n w m h]
    exact coreEq_refl _

theorem parentOf_congr {s s' : St} (h : SameCore s s') (m : Nat) :
    parentOf s m = parentOf s' m := by
  rw [parentOf, parentOf, ← h.1, (h.2 m).2.1]

theorem localAt_congr {s s' : St} (h : SameCore s s') (m : Nat) : localAt s m = localAt s' m := by
  rw [localAt, localAt, ← h.1, localSpecOf_congr (h.2 m)]

theorem specWorldF_congr {s s' : St} (h : SameCore s s') :
    ∀ (f n : Nat), specWorldF s f n = specWorldF s' f n
  | 0, n => localAt_congr h n
  | f + 1, n => by
    rw [specWorldF, specWorldF, ← parentOf_congr h n]
    cases hp : parentOf s n with
    | none => exact localAt_congr h n
    | some p =>
      show specWorldF s f p * localAt s n = specWorldF s' f p * localAt s' n
      rw [specWorldF_congr h f p, localAt_congr h n]

theorem specWorld_congr {s s' : St} (h : SameCore s s') (n : Nat) :
    specWorld s n = specWorld s' n := specWorldF_congr h (n + 1) n

theorem specWorldF_stable (s : St)
    (hord : ∀ n, n < s.len → ∀ p, (s.node n).parent = some p → p < n) :
    ∀ (n f g : Nat), n < f → n < g → specWorldF s f n = specWorldF s g n := by
  intro n
  induction n using Nat.strong_induction_on with
  | _ n ih =>
    intro f g hf hg
    obtain ⟨f', rfl⟩ : ∃ f', f = f' + 1 := ⟨f - 1, by omega⟩
    obtain ⟨g', rfl⟩ : ∃ g', g = g' + 1 := ⟨g - 1, by omega⟩
    rw [specWorldF, specWorldF]
    cases hp : parentOf s n with
    | none => rfl
    | some p =>
      obtain ⟨hn, hpar⟩ := parentOf_some s n p hp
      have hpn : p < n := hord n hn p hpar
      show specWorldF s f' p * localAt s n = specWorldF s g' p * localAt s n
      rw [ih p hpn f' g' (by omega) (by omega)]

theorem curLocal_eq_spec (s : St) (hwf : WF s) (n : Nat) (hn : n < s.len) :
    curLocal (s.node n) = localSpecOf (s.node n) := by
  rw [curLocal]
  cases hld : (s.node n).localDirty with
  | true => rw [if_pos rfl]
  | false => rw [if_neg (by simp), hwf.localInv n hn hld]

theorem specWorld_root (s : St) (n : Nat) (hn : n < s.len)
    (hp : (s.node n).parent = none) : specWorld s n = localSpecOf (s.node n) := by
  rw [specWorld, specWorldF, parentOf, if_pos hn, hp, localAt, if_pos hn]

theorem specWorld_parent (s : St)
    (hord : ∀ n, n < s.len → ∀ p, (s.node n).parent = some p → p < n)
    (n p : Nat) (hn : n < s.len) (hp : (s.node n).parent = some p) :
    specWorld s n = specWorld s p * localSpecOf (s.node n) := by
  have hpp : parentOf s n = some p := by rw [parentOf, if_pos hn, hp]
  have hpn : p < n := hord n hn p hp
  rw [specWorld, specWorldF, hpp, localAt, if_pos hn]
  show specWorldF s n p * localSpecOf (s.node n) = specWorld s p * localSpecOf (s.node n)
  rw [specWorldF_stable s hord p n (p + 1) hpn (by omega)]
  rfl

theorem clean_eq_spec (s : St) (hwf : WF s) :
    ∀ n, n < s.len → (s.node n).worldDirty = false → (s.node n).world = specWorld s n := by
  intro n
  induction n using Nat.strong_induction_on with
  | _ n ih =>
    intro hn hd
    cases hp : (s.node n).parent with
    | none => rw [hwf.worldRoot n hn hd hp, specWorld_root s n hn hp]
    | some p =>
      have hpn := hwf.ordered n hn p hp
      obtain ⟨hclean, hw⟩ := hwf.worldParent n p hn hd hp
      rw [hw, ih p hpn (Nat.lt_trans hpn hn) hclean,
        specWorld_parent s hwf.ordered n p hn hp]

/-! ### The lazy world-matrix query refreshes caches correctly -/

theorem WF_writeWorld (s : St) (n : Nat) (w : Mat4) (hwf : WF s) (hn : n < s.len)
    (hd : (s.node n).worldDirty = true)
    (hroot : (s.node n).parent = none → w = localSpecOf (s.node n))
    (hpar : ∀ p, (s.node n).parent = some p →
      (s.node p).worldDirty = false ∧ w = (s.node p).world * localSpecOf (s.node n)) :
    WF (writeWorld s n w) := by
  refine ⟨?_, ?_, ?_, ?_, ?_, ?_⟩
  · intro m hm p hp
    rw [writeWorld_len] at hm
    by_cases he : m = n
    · subst he
      rw [writeWorld_node_self] at hp
      exact hwf.ordered m hm p hp
    · rw [writeWorld_node_ne s n w m he] at hp
      exact hwf.ordered m hm p hp
  · intro m hm hld
    rw [writeWorld_len] at hm
    by_cases he : m = n
    · subst he
      rw [writeWorld_node_self]
      show curLocal (s.node m) = localSpecOf (s.node m)
      exact curLocal_eq_spec s hwf m hm
    · rw [writeWorld_node_ne s n w m he] at hld ⊢
      exact hwf.localInv m hm hld
  · intro m hm hwd hp
    rw [writeWorld_len] at hm
    by_cases he : m = n
    · subst he
      rw [writeWorld_node_self] at hp ⊢
      exact hroot hp
    · rw [writeWorld_node_ne s n w m he] at hwd hp ⊢
      exact hwf.worldRoot m hm hwd hp
  · intro m p hm hwd hp
    rw [writeWorld_len] at hm
    by_cases he : m = n
    · subst he
      rw [writeWorld_node_self] at hp
      have hp' : (s.node m).parent = some p := hp
      have hpn : p < m := hwf.ordered m hm p hp'
      obtain ⟨hc, hwv⟩ := hpar p hp'
      constructor
      · rw [writeWorld_node_ne s m w p (by omega)]
        exact hc
      · rw [writeWorld_node_self, writeWorld_node_ne s m w p (by omega)]
        exact hwv
    · rw [writeWorld_node_ne s n w m he] at hwd hp ⊢
      by_cases hpe : p = n
      · subst hpe
        have hcontra := (hwf.worldParent m p hm hwd hp).1
        simp [hd] at hcontra
      · rw [writeWorld_node_ne s n w p hpe]
        exact hwf.worldParent m p hm hwd hp
  · intro m hm
    rw [writeWorld_len] at hm
    by_cases he : m = n
    · subst he
      rw [writeWorld_node_self]
      exact hwf.boundsMatch m hm
    · rw [writeWorld_node_ne s n w m he]
      exact hwf.boundsMatch m hm
  · intro m hm hbd hmo
    rw [writeWorld_len] at hm
    by_cases he : m = n
    · subst he
      rw [writeWorld_node_self] at hbd hmo ⊢
      exact hwf.boundsEmpty m hm hbd hmo
    · rw [writeWorld_node_ne s n w m he] at hbd hmo ⊢
      exact hwf.boundsEmpty m hm hbd hmo

theorem getWorldF_main : ∀ (fuel : Nat) (s : St) (n : Nat), WF s → n < s.len → n < fuel →
    (getWorldF fuel n s).1 = specWorld s n ∧
    SameCore s (getWorldF fuel n s).2 ∧
    WF (getWorldF fuel n s).2 ∧
    ∀ m, n < m → (getWorldF fuel n s).2.node m = s.node m
  | 0, _, n => fun _ _ hf => absurd hf (by omega)
  | fuel + 1, s, n => by
    intro hwf hn hf
    rw [getWorldF, if_pos hn]
    by_cases hd : (s.node n).worldDirty
    · rw [if_pos hd]
      cases hp : (s.node n).parent with
      | none =>
        have hcur := curLocal_eq_spec s hwf n hn
        have hspec : specWorld s n = localSpecOf (s.node n) := specWorld_root s n hn hp
        refine ⟨?_, ?_, ?_, ?_⟩
        · show curLocal (s.node n) = specWorld s n
          rw [hcur, hspec]
        · exact writeWorld_sameCore s n _
        · refine WF_writeWorld s n _ hwf hn (by simpa using hd) (fun _ => hcur) ?_
          intro p hp'
          rw [hp] at hp'
          exact absurd hp' (by simp)
        · intro m hm
          exact writeWorld_node_ne s n _ m (by omega)
      | some p =>
        have hpn : p < n := hwf.ordered n hn p hp
        have hpl : p < s.len := Nat.lt_trans hpn hn
        obtain ⟨ih1, ih2, ih3, ih4⟩ := getWorldF_main fuel s p hwf hpl (by omega)
        have hfin := getWorldF_final fuel p s (by omega) hpl
        have hnn : (getWorldF fuel p s).2.node n = s.node n := ih4 n hpn
        have hcur2 : curLocal ((getWorldF fuel p s).2.node n) = localSpecOf (s.node n) := by
          rw [hnn]
          exact curLocal_eq_spec s hwf n hn
        have hspecn : specWorld s n = specWorld s p * localSpecOf (s.node n) :=
          specWorld_parent s hwf.ordered n p hn hp
        refine ⟨?_, ?_, ?_, ?_⟩
        · show (getWorldF fuel p s).1 * curLocal ((getWorldF fuel p s).2.node n) = specWorld s n
          rw [hcur2, ih1, hspecn]
        · exact sameCore_trans ih2 (writeWorld_sameCore _ n _)
        · show WF (writeWorld (getWorldF fuel p s).2 n
            ((getWorldF fuel p s).1 * curLocal ((getWorldF fuel p s).2.node n)))
          refine WF_writeWorld _ n _ ih3 (by rw [getWorldF_len]; exact hn)
            (by rw [hnn]; simpa using hd) ?_ ?_
          · intro hnone
            rw [hnn, hp] at hnone
            exact absurd hnone (by simp)
          · intro q hq
            rw [hnn, hp] at hq
            obtain rfl : p = q := Option.some.inj hq
            refine ⟨hfin.1, ?_⟩
            rw [hfin.2, hnn, curLocal_eq_spec s hwf n hn]
        · intro m hm
          show (writeWorld (getWorldF fuel p s).2 n
            ((getWorldF fuel p s).1 * curLocal ((getWorldF fuel p s).2.node n))).node m = s.node m
          rw [writeWorld_node_ne _ _ _ m (by omega), ih4 m (by omega)]
    · rw [if_neg hd]
      refine ⟨clean_eq_spec s hwf n hn (by simpa using hd), sameCore_refl s, hwf, fun m _ => rfl⟩

/-- `getWorldMatrix` returns the mathematical world matrix on any
well-formed state. -/
theorem getWorld_spec (s : St) (hwf : WF s) (n : Nat) (hn : n < s.len) :
    (getWorld n s).1 = specWorld s n :=
  (getWorldF_main s.len s n hwf hn hn).1

/-- `getWorldMatrix` preserves well-formedness. -/
theorem getWorld_WF (s : St) (hwf : WF s) (n : Nat) : WF (getWorld n s).2 := by
  by_cases hn : n < s.len
  · exact (getWorldF_main s.len s n hwf hn hn).2.2.1
  · rw [getWorld, getWorldF_invalid s.len n s hn]
    exact hwf

/-- `getWorldMatrix` does not change the logical content of the scene. -/
theorem getWorld_sameCore (s : St) (hwf : WF s) (n : Nat) : SameCore s (getWorld n s).2 := by
  by_cases hn : n < s.len
  · exact (getWorldF_main s.len s n hwf hn hn).2.1
  · rw [getWorld, getWorldF_invalid s.len n s hn]
    exact sameCore_refl s

/-! ### The eager dirty-bit cascade -/

theorem isAncSelfB_zero (s : St) (a m : Nat) : isAncSelfB s 0 a m = decide (a = m) := rfl

theorem isAncSelfB_succ (s : St) (f a m : Nat) :
    isAncSelfB s (f + 1) a m =
      if a = m then true
      else
        match parentOf s m with
        | none => false
        | some p => isAncSelfB s f a p := rfl

theorem isAncSelfB_self (s : St) (f a : Nat) : isAncSelfB s f a a = true := by
  cases f with
  | zero => simp [isAncSelfB_zero]
  | succ f => rw [isAncSelfB_succ, if_pos rfl]

theorem isAncSelfB_ne_of_false {s : St} {f a m : Nat} (h : isAncSelfB s f a m = false) :
    a ≠ m := by
  intro he
  rw [he, isAncSelfB_self] at h
  exact absurd h (by simp)

theorem isAncSelfB_stable (s : St)
    (hord : ∀ n, n < s.len → ∀ p, (s.node n).parent = some p → p < n) :
    ∀ (m a f g : Nat), m < f → m < g → isAncSelfB s f a m = isAncSelfB s g a m := by
  intro m
  induction m using Nat.strong_induction_on with
  | _ m ih =>
    intro a f g hf hg
    obtain ⟨f', rfl⟩ : ∃ f', f = f' + 1 := ⟨f - 1, by omega⟩
    obtain ⟨g', rfl⟩ : ∃ g', g = g' + 1 := ⟨g - 1, by omega⟩
    rw [isAncSelfB_succ, isAncSelfB_succ]
    by_cases h : a = m
    · rw [if_pos h, if_pos h]
    · rw [if_neg h, if_neg h]
      cases hp : parentOf s m with
      | none => rfl
      | some p =>
        obtain ⟨hm, hpar⟩ := parentOf_some s m p hp
        have hpm : p < m := hord m hm p hpar
        exact ih p hpm a f' g' (by omega) (by omega)

theorem isAncSelfB_closed (s : St)
    (hord : ∀ n, n < s.len → ∀ p, (s.node n).parent = some p → p < n)
    (a m p : Nat) (hp : parentOf s m = some p) (hanc : isAncSelfB s s.len a p = true) :
    isAncSelfB s s.len a m = true := by
  obtain ⟨hm, hpar⟩ := parentOf_some s m p hp
  obtain ⟨k, hk⟩ : ∃ k, s.len = k + 1 := ⟨s.len - 1, by omega⟩
  by_cases h : a = m
  · rw [hk, isAncSelfB_succ, if_pos h]
  · have hpm : p < m := hord m hm p hpar
    rw [hk, isAncSelfB_succ, if_neg h, hp]
    show isAncSelfB s k a p = true
    rw [isAncSelfB_stable s hord p a k s.len (by omega) (by omega)]
    exact hanc

theorem isAncSelfB_congr {s u : St}
    (hpar : ∀ m, parentOf s m = parentOf u m) :
    ∀ (f a m : Nat), isAncSelfB s f a m = isAncSelfB u f a m := by
  intro f
  induction f with
  | zero =>
    intro a m
    rw [isAncSelfB_zero, isAncSelfB_zero]
  | succ f ihf =>
    intro a m
    rw [isAncSelfB_succ, isAncSelfB_succ, ← hpar m]
    by_cases h : a = m
    · rw [if_pos h, if_pos h]
    · rw [if_neg h, if_neg h]
      cases parentOf s m with
      | none => rfl
      | some p => exact ihf a p

theorem markSubtree_len (s : St) (a : Nat) : (markSubtreeDirty s a).len = s.len := rfl

theorem markSubtree_node (s : St) (a m : Nat) :
    (markSubtreeDirty s a).node m =
      if isAncSelfB s s.len a m then { s.node m with worldDirty := true } else s.node m := rfl

theorem markSubtree_node_in (s : St) (a m : Nat) (h : isAncSelfB s s.len a m = true) :
    (markSubtreeDirty s a).node m = { s.node m with worldDirty := true } := by
  rw [markSubtree_node, h]
  rfl

theorem markSubtree_node_out (s : St) (a m : Nat) (h : isAncSelfB s s.len a m = false) :
    (markSubtreeDirty s a).node m = s.node m := by
  rw [markSubtree_node, h]
  rfl

theorem markSubtree_clean_out (s : St) (a m : Nat)
    (h : ((markSubtreeDirty s a).node m).worldDirty = false) :
    isAncSelfB s s.len a m = false ∧ (markSubtreeDirty s a).node m = s.node m := by
  cases hm : isAncSelfB s s.len a m with
  | false => exact ⟨rfl, markSubtree_node_out s a m hm⟩
  | true =>
    rw [markSubtree_node_in s a m hm] at h
    exact absurd h (by simp)

/-- Marking a subtree dirty preserves well-formedness, provided the
state was well-formed outside the marked subtree. -/
theorem WF_markSubtree (u : St) (a : Nat)
    (hord : ∀ n, n < u.len → ∀ p, (u.node n).parent = some p → p < n)
    (hloc : ∀ n, n < u.len → (u.node n).localDirty = false →
      (u.node n).localMat = localSpecOf (u.node n))
    (hroot : ∀ n, n < u.len → (u.node n).worldDirty = false →
      isAncSelfB u u.len a n = false → (u.node n).parent = none →
      (u.node n).world = localSpecOf (u.node n))
    (hpar : ∀ n p, n < u.len → (u.node n).worldDirty = false →
      isAncSelfB u u.len a n = false → (u.node n).parent = some p →
      (u.node p).worldDirty = false ∧
        (u.node n).world = (u.node p).world * localSpecOf (u.node n))
    (hbm : ∀ n, n < u.len → cacheMatches (u.node n))
    (hbe : ∀ n, n < u.len → (u.node n).boundsDirty = false → (u.node n).model = none →
      (u.node n).bounds = emptyCacheFor (u.node n).boundsType) :
    WF (markSubtreeDirty u a) := by
  refine ⟨?_, ?_, ?_, ?_, ?_, ?_⟩
  · intro m hm p hp
    rw [markSubtree_len] at hm
    rw [markSubtree_node] at hp
    by_cases h : isAncSelfB u u.len a m = true
    · rw [if_pos h] at hp
      exact hord m hm p hp
    · rw [if_neg h] at hp
      exact hord m hm p hp
  · intro m hm hld
    rw [markSubtree_len] at hm
    rw [markSubtree_node] at hld ⊢
    by_cases h : isAncSelfB u u.len a m = true
    · rw [if_pos h] at hld ⊢
      exact hloc m hm hld
    · rw [if_neg h] at hld ⊢
      exact hloc m hm hld
  · intro m hm hwd hp
    rw [markSubtree_len] at hm
    obtain ⟨hout, heq⟩ := markSubtree_clean_out u a m hwd
    rw [heq] at hp ⊢
    rw [heq] at hwd
    exact hroot m hm hwd hout hp
  · intro m p hm hwd hp
    rw [markSubtree_len] at hm
    obtain ⟨hout, heq⟩ := markSubtree_clean_out u a m hwd
    rw [heq] at hp hwd ⊢
    have hpp : parentOf u m = some p := by rw [parentOf, if_pos hm, hp]
    have hpout : isAncSelfB u u.len a p = false := by
      cases hq : isAncSelfB u u.len a p with
      | false => rfl
      | true => exact absurd (isAncSelfB_closed u hord a m p hpp hq) (by simp [hout])
    rw [markSubtree_node_out u a p hpout]
    exact hpar m p hm hwd hout hp
  · intro m hm
    rw [markSubtree_len] at hm
    rw [markSubtree_node]
    by_cases h : isAncSelfB u u.len a m = true
    · rw [if_pos h]
      exact hbm m hm
    · rw [if_neg h]
      exact hbm m hm
  · intro m hm hbd hmo
    rw [markSubtree_len] at hm
    rw [markSubtree_node] at hbd hmo ⊢
    by_cases h : isAncSelfB u u.len a m = true
    · rw [if_pos h] at hbd hmo ⊢
      exact hbe m hm hbd hmo
    · rw [if_neg h] at hbd hmo ⊢
      exact hbe m hm hbd hmo

/-! ### Preservation of well-formedness by every operation -/

theorem editNodeAt_len (s : St) (n : Nat) (f : NodeState → NodeState) :
    (editNodeAt s n f).len = s.len := rfl

theorem editNodeAt_node_self (s : St) (n : Nat) (f : NodeState → NodeState) :
    (editNodeAt s n f).node n = f (s.node n) := by
  simp [editNodeAt]

theorem editNodeAt_node_ne (s : St) (n : Nat) (f : NodeState → NodeState) (m : Nat)
    (h : m ≠ n) : (editNodeAt s n f).node m = s.node m := by
  simp [editNodeAt, h]

theorem editNodeAt_node (s : St) (n : Nat) (f : NodeState → NodeState) (m : Nat) :
    (editNodeAt s n f).node m = if m = n then f (s.node n) else s.node m := by
  simp [editNodeAt]

theorem applyLocalEdit_parent (e : LocalEdit) (nd : NodeState) :
    (applyLocalEdit e nd).parent = nd.parent := by
  cases e <;> rfl

theorem applyLocalEdit_localMat (e : LocalEdit) (nd : NodeState) :
    (applyLocalEdit e nd).localMat = nd.localMat := by
  cases e <;> rfl

theorem applyLocalEdit_localDirty (e : LocalEdit) (nd : NodeState) :
    (applyLocalEdit e nd).localDirty = true := by
  cases e <;> rfl

theorem applyLocalEdit_world (e : LocalEdit) (nd : NodeState) :
    (applyLocalEdit e nd).world = nd.world := by
  cases e <;> rfl

theorem applyLocalEdit_worldDirty (e : LocalEdit) (nd : NodeState) :
    (applyLocalEdit e nd).worldDirty = nd.worldDirty := by
  cases e <;> rfl

theorem applyLocalEdit_model (e : LocalEdit) (nd : NodeState) :
    (applyLocalEdit e nd).model = nd.model := by
  cases e <;> rfl

theorem applyLocalEdit_boundsType (e : LocalEdit) (nd : NodeState) :
    (applyLocalEdit e nd).boundsType = nd.boundsType := by
  cases e <;> rfl

theorem applyLocalEdit_bounds (e : LocalEdit) (nd : NodeState) :
    (applyLocalEdit e nd).bounds = nd.bounds := by
  cases e <;> rfl

theorem applyLocalEdit_boundsDirty (e : LocalEdit) (nd : NodeState) :
    (applyLocalEdit e nd).boundsDirty = nd.boundsDirty := by
  cases e <;> rfl

theorem WF_stepSetLocal (s : St) (hwf : WF s) (n : Nat) (e : LocalEdit) :
    WF (stepSetLocal n e s) := by
  rw [stepSetLocal]
  by_cases hn : n < s.len
  · rw [if_pos hn]
    have hnode := editNodeAt_node s n (applyLocalEdit e)
    have hlen : (editNodeAt s n (applyLocalEdit e)).len = s.len := rfl
    refine WF_markSubtree _ n ?_ ?_ ?_ ?_ ?_ ?_
    · intro m hm p hp
      rw [hlen] at hm
      rw [hnode m] at hp
      by_cases he : m = n
      · rw [if_pos he, applyLocalEdit_parent] at hp
        subst he
        exact hwf.ordered m hm p hp
      · rw [if_neg he] at hp
        exact hwf.ordered m hm p hp
    · intro m hm hld
      rw [hlen] at hm
      rw [hnode m] at hld ⊢
      by_cases he : m = n
      · rw [if_pos he, applyLocalEdit_localDirty] at hld
        exact absurd hld (by simp)
      · rw [if_neg he] at hld ⊢
        exact hwf.localInv m hm hld
    · intro m hm hwd hout hp
      rw [hlen] at hm
      have hne : m ≠ n := fun he => by
        rw [he] at hout
        rw [isAncSelfB_self] at hout
        exact absurd hout (by simp)
      rw [hnode m, if_neg hne] at hwd hp ⊢
      exact hwf.worldRoot m hm hwd hp
    · intro m p hm hwd hout hp
      rw [hlen] at hm
      have hne : m ≠ n := fun he => by
        rw [he] at hout
        rw [isAncSelfB_self] at hout
        exact absurd hout (by simp)
      rw [hnode m, if_neg hne] at hwd hp ⊢
      rw [hnode p]
      by_cases hpe : p = n
      · subst hpe
        rw [if_pos rfl, applyLocalEdit_worldDirty, applyLocalEdit_world]
        exact hwf.worldParent m p hm hwd hp
      · rw [if_neg hpe]
        exact hwf.worldParent m p hm hwd hp
    · intro m hm
      rw [hlen] at hm
      rw [hnode m]
      by_cases he : m = n
      · subst he
        rw [if_pos rfl]
        have := hwf.boundsMatch m hm
        rw [cacheMatches, applyLocalEdit_boundsType, applyLocalEdit_bounds]
        exact this
      · rw [if_neg he]
        exact hwf.boundsMatch m hm
    · intro m hm hbd hmo
      rw [hlen] at hm
      rw [hnode m] at hbd hmo ⊢
      by_cases he : m = n
      · subst he
        rw [if_pos rfl, applyLocalEdit_boundsDirty] at hbd
        rw [if_pos rfl, applyLocalEdit_model] at hmo
        rw [if_pos rfl, applyLocalEdit_bounds, applyLocalEdit_boundsType]
        exact hwf.boundsEmpty m hm hbd hmo
      · rw [if_neg he] at hbd hmo ⊢
        exact hwf.boundsEmpty m hm hbd hmo
  · rw [if_neg hn]
    exact hwf

theorem WF_stepSetParent (s : St) (hwf : WF s) (n : Nat) (po : Option Nat) :
    WF (stepSetParent n po s) := by
  rw [stepSetParent]
  by_cases hg : n < s.len ∧ parentArgOk n po = true
  · rw [if_pos hg]
    have hnode := editNodeAt_node s n (fun nd => { nd with parent := po })
    have hlen : (editNodeAt s n (fun nd => { nd with parent := po })).len = s.len := rfl
    refine WF_markSubtree _ n ?_ ?_ ?_ ?_ ?_ ?_
    · intro m hm p hp
      rw [hlen] at hm
      rw [hnode m] at hp
      by_cases he : m = n
      · subst he
        rw [if_pos rfl] at hp
        have hp' : po = some p := hp
        obtain rfl : po = some p := hp'
        simpa [parentArgOk] using hg.2
      · rw [if_neg he] at hp
        exact hwf.ordered m hm p hp
    · intro m hm hld
      rw [hlen] at hm
      rw [hnode m] at hld ⊢
      by_cases he : m = n
      · rw [if_pos he] at hld ⊢
        exact hwf.localInv n (he ▸ hm) hld
      · rw [if_neg he] at hld ⊢
        exact hwf.localInv m hm hld
    · intro m hm hwd hout hp
      rw [hlen] at hm
      have hne : m ≠ n := fun he => by
        rw [he] at hout
        rw [isAncSelfB_self] at hout
        exact absurd hout (by simp)
      rw [hnode m, if_neg hne] at hwd hp ⊢
      exact hwf.worldRoot m hm hwd hp
    · intro m p hm hwd hout hp
      rw [hlen] at hm
      have hne : m ≠ n := fun he => by
        rw [he] at hout
        rw [isAncSelfB_self] at hout
        exact absurd hout (by simp)
      rw [hnode m, if_neg hne] at hwd hp ⊢
      rw [hnode p]
      by_cases hpe : p = n
      · subst hpe
        rw [if_pos rfl]
        exact hwf.worldParent m p hm hwd hp
      · rw [if_neg hpe]
        exact hwf.worldParent m p hm hwd hp
    · intro m hm
      rw [hlen] at hm
      rw [hnode m]
      by_cases he : m = n
      · subst he
        rw [if_pos rfl]
        exact hwf.boundsMatch m hm
      · rw [if_neg he]
        exact hwf.boundsMatch m hm
    · intro m hm hbd hmo
      rw [hlen] at hm
      rw [hnode m] at hbd hmo ⊢
      by_cases he : m = n
      · subst he
        rw [if_pos rfl] at hbd hmo ⊢
        exact hwf.boundsEmpty m hm hbd hmo
      · rw [if_neg he] at hbd hmo ⊢
        exact hwf.boundsEmpty m hm hbd hmo
  · rw [if_neg hg]
    exact hwf

theorem coreEq_parent {a b : NodeState} (h : coreEq a b) : a.parent = b.parent := h.2.1

theorem coreEq_model {a b : NodeState} (h : coreEq a b) : a.model = b.model := by
  obtain ⟨-, -, -, -, -, -, -, h8, -⟩ := h
  exact h8

theorem coreEq_boundsType {a b : NodeState} (h : coreEq a b) : a.boundsType = b.boundsType := by
  obtain ⟨-, -, -, -, -, -, -, -, -, -, h11, -⟩ := h
  exact h11

theorem resApply_parent (k : RKind) (r : Option Nat) (nd : NodeState) :
    (resApply k r nd).parent = nd.parent := by
  cases k <;> rfl

theorem resApply_localMat (k : RKind) (r : Option Nat) (nd : NodeState) :
    (resApply k r nd).localMat = nd.localMat := by
  cases k <;> rfl

theorem resApply_localDirty (k : RKind) (r : Option Nat) (nd : NodeState) :
    (resApply k r nd).localDirty = nd.localDirty := by
  cases k <;> rfl

theorem resApply_world (k : RKind) (r : Option Nat) (nd : NodeState) :
    (resApply k r nd).world = nd.world := by
  cases k <;> rfl

theorem resApply_worldDirty (k : RKind) (r : Option Nat) (nd : NodeState) :
    (resApply k r nd).worldDirty = nd.worldDirty := by
  cases k <;> rfl

theorem resApply_boundsType (k : RKind) (r : Option Nat) (nd : NodeState) :
    (resApply k r nd).boundsType = nd.boundsType := by
  cases k <;> rfl

theorem resApply_bounds (k : RKind) (r : Option Nat) (nd : NodeState) :
    (resApply k r nd).bounds = nd.bounds := by
  cases k <;> rfl

theorem resApply_localSpec (k : RKind) (r : Option Nat) (nd : NodeState) :
    localSpecOf (resApply k r nd) = localSpecOf nd := by
  cases k <;> rfl

theorem resApply_model_ne (k : RKind) (r : Option Nat) (nd : NodeState)
    (h : k ≠ RKind.model) : (resApply k r nd).model = nd.model := by
  cases k with
  | model => exact absurd rfl h
  | _ => rfl

theorem resApply_boundsDirty_ne (k : RKind) (r : Option Nat) (nd : NodeState)
    (h : k ≠ RKind.model) : (resApply k r nd).boundsDirty = nd.boundsDirty := by
  cases k with
  | model => exact absurd rfl h
  | _ => rfl

theorem resApply_model_boundsDirty (r : Option Nat) (nd : NodeState) :
    (resApply RKind.model r nd).boundsDirty = true := rfl

theorem WF_stepAddNode (s : St) (hwf : WF s) (i : String) : WF (stepAddNode i s) := by
  have hnode : ∀ m, (stepAddNode i s).node m =
      if m = s.len then { defaultNode with id := i } else s.node m := fun _ => rfl
  have hlen : (stepAddNode i s).len = s.len + 1 := rfl
  refine ⟨?_, ?_, ?_, ?_, ?_, ?_⟩
  · intro m hm p hp
    rw [hlen] at hm
    rw [hnode m] at hp
    by_cases he : m = s.len
    · rw [if_pos he] at hp
      exact absurd hp (by simp [defaultNode])
    · rw [if_neg he] at hp
      exact hwf.ordered m (by omega) p hp
  · intro m hm hld
    rw [hlen] at hm
    rw [hnode m] at hld ⊢
    by_cases he : m = s.len
    · rw [if_pos he] at hld
      exact absurd hld (by simp [defaultNode])
    · rw [if_neg he] at hld ⊢
      exact hwf.localInv m (by omega) hld
  · intro m hm hwd hp
    rw [hlen] at hm
    rw [hnode m] at hwd hp ⊢
    by_cases he : m = s.len
    · rw [if_pos he] at hwd
      exact absurd hwd (by simp [defaultNode])
    · rw [if_neg he] at hwd hp ⊢
      exact hwf.worldRoot m (by omega) hwd hp
  · intro m p hm hwd hp
    rw [hlen] at hm
    rw [hnode m] at hwd hp ⊢
    by_cases he : m = s.len
    · rw [if_pos he] at hwd
      exact absurd hwd (by simp [defaultNode])
    · rw [if_neg he] at hwd hp ⊢
      have hml : m < s.len := by omega
      have hpm : p < m := hwf.ordered m hml p hp
      rw [hnode p, if_neg (by omega)]
      exact hwf.worldParent m p hml hwd hp
  · intro m hm
    rw [hlen] at hm
    rw [hnode m]
    by_cases he : m = s.len
    · rw [if_pos he]
      exact trivial
    · rw [if_neg he]
      exact hwf.boundsMatch m (by omega)
  · intro m hm hbd hmo
    rw [hlen] at hm
    rw [hnode m] at hbd hmo ⊢
    by_cases he : m = s.len
    · rw [if_pos he] at hbd
      exact absurd hbd (by simp [defaultNode])
    · rw [if_neg he] at hbd hmo ⊢
      exact hwf.boundsEmpty m (by omega) hbd hmo

theorem WF_stepSetRes (s : St) (hwf : WF s) (k : RKind) (n : Nat) (r : Option Nat) :
    WF (stepSetRes k n r s) := by
  by_cases hn : n < s.len
  · by_cases hsame : getRes k (s.node n) = r
    · rw [stepSetRes, if_pos hn, if_pos hsame]
      exact hwf
    · have hlen : (stepSetRes k n r s).len = s.len := by
        rw [stepSetRes, if_pos hn, if_neg hsame]
        rfl
      have hnode : ∀ m, (stepSetRes k n r s).node m =
          if m = n then resApply k r (s.node n) else s.node m := by
        intro m
        rw [stepSetRes, if_pos hn, if_neg hsame]
        exact editNodeAt_node s n (resApply k r) m
      refine ⟨?_, ?_, ?_, ?_, ?_, ?_⟩
      · intro m hm p hp
        rw [hlen] at hm
        rw [hnode m] at hp
        by_cases he : m = n
        · rw [if_pos he, resApply_parent] at hp
          exact hwf.ordered m hm p (he ▸ hp)
        · rw [if_neg he] at hp
          exact hwf.ordered m hm p hp
      · intro m hm hld
        rw [hlen] at hm
        rw [hnode m] at hld ⊢
        by_cases he : m = n
        · subst he
          rw [if_pos rfl, resApply_localDirty] at hld
          rw [if_pos rfl, resApply_localMat, resApply_localSpec]
          exact hwf.localInv m hm hld
        · rw [if_neg he] at hld ⊢
          exact hwf.localInv m hm hld
      · intro m hm hwd hp
        rw [hlen] at hm
        rw [hnode m] at hwd hp ⊢
        by_cases he : m = n
        · subst he
          rw [if_pos rfl, resApply_worldDirty] at hwd
          rw [if_pos rfl, resApply_parent] at hp
          rw [if_pos rfl, resApply_world, resApply_localSpec]
          exact hwf.worldRoot m hm hwd hp
        · rw [if_neg he] at hwd hp ⊢
          exact hwf.worldRoot m hm hwd hp
      · intro m p hm hwd hp
        rw [hlen] at hm
        rw [hnode m] at hwd hp ⊢
        rw [hnode p]
        by_cases he : m = n
        · subst he
          rw [if_pos rfl, resApply_worldDirty] at hwd
          rw [if_pos rfl, resApply_parent] at hp
          have hpm : p < m := hwf.ordered m hm p hp
          rw [if_neg (by omega), if_pos rfl, resApply_world, resApply_localSpec]
          exact hwf.worldParent m p hm hwd hp
        · rw [if_neg he] at hwd hp ⊢
          by_cases hpe : p = n
          · subst hpe
            rw [if_pos rfl, resApply_worldDirty, resApply_world]
            exact hwf.worldParent m p hm hwd hp
          · rw [if_neg hpe]
            exact hwf.worldParent m p hm hwd hp
      · intro m hm
        rw [hlen] at hm
        rw [hnode m]
        by_cases he : m = n
        · subst he
          rw [if_pos rfl]
          have hsrc := hwf.boundsMatch m hm
          rw [cacheMatches, resApply_boundsType, resApply_bounds]
          exact hsrc
        · rw [if_neg he]
          exact hwf.boundsMatch m hm
      · intro m hm hbd hmo
        rw [hlen] at hm
        rw [hnode m] at hbd hmo ⊢
        by_cases he : m = n
        · subst he
          rw [if_pos rfl] at hbd hmo ⊢
          by_cases hk : k = RKind.model
          · subst hk
            rw [resApply_model_boundsDirty] at hbd
            exact absurd hbd (by simp)
          · rw [resApply_boundsDirty_ne k r _ hk] at hbd
            rw [resApply_model_ne k r _ hk] at hmo
            rw [resApply_bounds, resApply_boundsType]
            exact hwf.boundsEmpty m hm hbd hmo
        · rw [if_neg he] at hbd hmo ⊢
          exact hwf.boundsEmpty m hm hbd hmo
  · rw [stepSetRes, if_neg hn]
    exact hwf

theorem cacheMatches_reset (nd : NodeState) (bt : BoundsType) :
    cacheMatches { nd with boundsType := bt, bounds := emptyCacheFor bt, boundsDirty := true } := by
  cases bt <;> exact trivial

theorem WF_stepSetBoundsType (s : St) (hwf : WF s) (n : Nat) (bt : BoundsType) :
    WF (stepSetBoundsType n bt s) := by
  by_cases hn : n < s.len
  · by_cases hb : bt = (s.node n).boundsType
    · rw [stepSetBoundsType, if_pos hn, if_pos hb]
      exact hwf
    · have hlen : (stepSetBoundsType n bt s).len = s.len := by
        rw [stepSetBoundsType, if_pos hn, if_neg hb]
        rfl
      have hnode : ∀ m, (stepSetBoundsType n bt s).node m =
          if m = n then
            { s.node n with boundsType := bt, bounds := emptyCacheFor bt, boundsDirty := true }
          else s.node m := by
        intro m
        rw [stepSetBoundsType, if_pos hn, if_neg hb]
        exact editNodeAt_node s n _ m
      refine ⟨?_, ?_, ?_, ?_, ?_, ?_⟩
      · intro m hm p hp
        rw [hlen] at hm
        rw [hnode m] at hp
        by_cases he : m = n
        · subst he
          rw [if_pos rfl] at hp
          exact hwf.ordered m hm p hp
        · rw [if_neg he] at hp
          exact hwf.ordered m hm p hp
      · intro m hm hld
        rw [hlen] at hm
        rw [hnode m] at hld ⊢
        by_cases he : m = n
        · subst he
          rw [if_pos rfl] at hld ⊢
          exact hwf.localInv m hm hld
        · rw [if_neg he] at hld ⊢
          exact hwf.localInv m hm hld
      · intro m hm hwd hp
        rw [hlen] at hm
        rw [hnode m] at hwd hp ⊢
        by_cases he : m = n
        · subst he
          rw [if_pos rfl] at hwd hp ⊢
          exact hwf.worldRoot m hm hwd hp
        · rw [if_neg he] at hwd hp ⊢
          exact hwf.worldRoot m hm hwd hp
      · intro m p hm hwd hp
        rw [hlen] at hm
        rw [hnode m] at hwd hp ⊢
        rw [hnode p]
        by_cases he : m = n
        · subst he
          rw [if_pos rfl] at hwd hp ⊢
          have hpm : p < m := hwf.ordered m hm p hp
          rw [if_neg (by omega)]
          exact hwf.worldParent m p hm hwd hp
        · rw [if_neg he] at hwd hp ⊢
          by_cases hpe : p = n
          · subst hpe
            rw [if_pos rfl]
            exact hwf.worldParent m p hm hwd hp
          · rw [if_neg hpe]
            exact hwf.worldParent m p hm hwd hp
      · intro m hm
        rw [hlen] at hm
        rw [hnode m]
        by_cases he : m = n
        · rw [if_pos he]
          exact cacheMatches_reset (s.node n) bt
        · rw [if_neg he]
          exact hwf.boundsMatch m hm
      · intro m hm hbd hmo
        rw [hlen] at hm
        rw [hnode m] at hbd hmo ⊢
        by_cases he : m = n
        · rw [if_pos he] at hbd
          exact absurd hbd (by simp)
        · rw [if_neg he] at hbd hmo ⊢
          exact hwf.boundsEmpty m hm hbd hmo
  · rw [stepSetBoundsType, if_neg hn]
    exact hwf

theorem WF_setActiveCamera (s : St) (hwf : WF s) (c : Option CameraData) :
    WF { s with activeCamera := c } :=
  ⟨hwf.ordered, hwf.localInv, hwf.worldRoot, hwf.worldParent, hwf.boundsMatch, hwf.boundsEmpty⟩

theorem cacheMatches_box (nd : NodeState) (h : nd.boundsType = BoundsType.BOX) (b : BBox) :
    cacheMatches { nd with bounds := .boxB b, boundsDirty := false } := by
  obtain ⟨i1, p1, t1, r1, s1, lm1, ld1, w1, wd1, c1, li1, mo1, au1, pe1, bt1, bo1, bd1⟩ := nd
  cases h
  exact trivial

theorem cacheMatches_sphere (nd : NodeState) (h : nd.boundsType = BoundsType.SPHERE)
    (b : BSphere) : cacheMatches { nd with bounds := .sphereB b, boundsDirty := false } := by
  obtain ⟨i1, p1, t1, r1, s1, lm1, ld1, w1, wd1, c1, li1, mo1, au1, pe1, bt1, bo1, bd1⟩ := nd
  cases h
  exact trivial

theorem WF_boundsCacheWrite (s2 : St) (hwf2 : WF s2) (n : Nat) (c : BoundsCache)
    (hm1 : cacheMatches { s2.node n with bounds := c, boundsDirty := false })
    (hm2 : (s2.node n).model = none → c = emptyCacheFor (s2.node n).boundsType) :
    WF (editNodeAt s2 n (fun nd => { nd with bounds := c, boundsDirty := false })) := by
  have hnode := editNodeAt_node s2 n (fun nd => { nd with bounds := c, boundsDirty := false })
  have hlen : (editNodeAt s2 n
      (fun nd => { nd with bounds := c, boundsDirty := false })).len = s2.len := rfl
  refine ⟨?_, ?_, ?_, ?_, ?_, ?_⟩
  · intro m hm p hp
    rw [hlen] at hm
    rw [hnode m] at hp
    by_cases he : m = n
    · subst he
      rw [if_pos rfl] at hp
      exact hwf2.ordered m hm p hp
    · rw [if_neg he] at hp
      exact hwf2.ordered m hm p hp
  · intro m hm hld
    rw [hlen] at hm
    rw [hnode m] at hld ⊢
    by_cases he : m = n
    · subst he
      rw [if_pos rfl] at hld ⊢
      exact hwf2.localInv m hm hld
    · rw [if_neg he] at hld ⊢
      exact hwf2.localInv m hm hld
  · intro m hm hwd hp
    rw [hlen] at hm
    rw [hnode m] at hwd hp ⊢
    by_cases he : m = n
    · subst he
      rw [if_pos rfl] at hwd hp ⊢
      exact hwf2.worldRoot m hm hwd hp
    · rw [if_neg he] at hwd hp ⊢
      exact hwf2.worldRoot m hm hwd hp
  · intro m p hm hwd hp
    rw [hlen] at hm
    rw [hnode m] at hwd hp ⊢
    rw [hnode p]
    by_cases he : m = n
    · subst he
      rw [if_pos rfl] at hwd hp ⊢
      have hpm : p < m := hwf2.ordered m hm p hp
      rw [if_neg (by omega)]
      exact hwf2.worldParent m p hm hwd hp
    · rw [if_neg he] at hwd hp ⊢
      by_cases hpe : p = n
      · subst hpe
        rw [if_pos rfl]
        exact hwf2.worldParent m p hm hwd hp
      · rw [if_neg hpe]
        exact hwf2.worldParent m p hm hwd hp
  · intro m hm
    rw [hlen] at hm
    rw [hnode m]
    by_cases he : m = n
    · rw [if_pos he]
      exact hm1
    · rw [if_neg he]
      exact hwf2.boundsMatch m hm
  · intro m hm hbd hmo
    rw [hlen] at hm
    rw [hnode m] at hbd hmo ⊢
    by_cases he : m = n
    · subst he
      rw [if_pos rfl] at hmo ⊢
      exact hm2 hmo
    · rw [if_neg he] at hbd hmo ⊢
      exact hwf2.boundsEmpty m hm hbd hmo

theorem WF_queryBox (s : St) (hwf : WF s) (n : Nat) : WF (queryBoundingBox n s).2 := by
  rw [queryBoundingBox]
  by_cases hn : n < s.len
  · rw [if_pos hn]
    by_cases ht : (s.node n).boundsType = BoundsType.BOX
    · rw [if_pos ht]
      by_cases hd : (s.node n).boundsDirty
      · rw [if_pos hd]
        have hwf2 := getWorld_WF s hwf n
        have hsc := getWorld_sameCore s hwf n
        have hbt : ((getWorld n s).2.node n).boundsType = BoundsType.BOX := by
          rw [← coreEq_boundsType (hsc.2 n)]
          exact ht
        refine WF_boundsCacheWrite _ hwf2 n _ (cacheMatches_box _ hbt _) ?_
        intro hmo
        rw [hbt, boxValue, hmo]
        rfl
      · rw [if_neg hd]
        exact hwf
    · rw [if_neg ht]
      exact hwf
  · rw [if_neg hn]
    exact hwf

theorem WF_querySphere (s : St) (hwf : WF s) (n : Nat) : WF (queryBoundingSphere n s).2 := by
  rw [queryBoundingSphere]
  by_cases hn : n < s.len
  · rw [if_pos hn]
    by_cases ht : (s.node n).boundsType = BoundsType.SPHERE
    · rw [if_pos ht]
      by_cases hd : (s.node n).boundsDirty
      · rw [if_pos hd]
        have hwf2 := getWorld_WF s hwf n
        have hsc := getWorld_sameCore s hwf n
        have hbt : ((getWorld n s).2.node n).boundsType = BoundsType.SPHERE := by
          rw [← coreEq_boundsType (hsc.2 n)]
          exact ht
        refine WF_boundsCacheWrite _ hwf2 n _ (cacheMatches_sphere _ hbt _) ?_
        intro hmo
        rw [hbt, sphereValue, hmo]
        rfl
      · rw [if_neg hd]
        exact hwf
    · rw [if_neg ht]
      exact hwf
  · rw [if_neg hn]
    exact hwf

/-- Every operation preserves well-formedness. -/
theorem WF_stepOp (op : Op) (s : St) (hwf : WF s) : WF (stepOp op s) := by
  cases op with
  | addNode i => exact WF_stepAddNode s hwf i
  | setLocal n e => exact WF_stepSetLocal s hwf n e
  | setParent n po => exact WF_stepSetParent s hwf n po
  | queryWorld n => exact getWorld_WF s hwf n
  | setResource k n r => exact WF_stepSetRes s hwf k n r
  | setBounds n bt => exact WF_stepSetBoundsType s hwf n bt
  | queryBox n => exact WF_queryBox s hwf n
  | querySphere n => exact WF_querySphere s hwf n
  | setActiveCamera c => exact WF_setActiveCamera s hwf c

theorem WF_run : ∀ (ops : List Op) (s : St), WF s → WF (run ops s)
  | [], _ => fun hwf => hwf
  | op :: ops, s => fun hwf => WF_run ops (stepOp op s) (WF_stepOp op s hwf)

theorem WF_initSt (mb : Nat → Option BBox) (ms : Nat → Option BSphere) :
    WF (initSt mb ms) := by
  refine ⟨?_, ?_, ?_, ?_, ?_, ?_⟩
  · intro n hn
    exact absurd hn (by simp [initSt])
  · intro n hn
    exact absurd hn (by simp [initSt])
  · intro n hn
    exact absurd hn (by simp [initSt])
  · intro n p hn
    exact absurd hn (by simp [initSt])
  · intro n hn
    exact absurd hn (by simp [initSt])
  · intro n hn
    exact absurd hn (by simp [initSt])

/-- Every reachable state is well-formed: in particular the spec's
section 3 invariants hold at all times. -/
theorem reachable_WF {s : St} (h : Reachable s) : WF s := by
  obtain ⟨mb, ms, ops, rfl⟩ := h
  exact WF_run ops _ (WF_initSt mb ms)

/-! ### The claims on the transform/matrix caching subsystem -/

/-- Claim C1: for every node of a reachable scene, `getWorldMatrix()`
returns the parent's world matrix multiplied by the node's local
matrix, and for a root node it returns the local matrix alone — for
arbitrary sequences of translate/rotate/scale edits and re-parenting
(any reachable state). -/
theorem claim_C1_world_matrix (s : St) (hs : Reachable s) (n : Nat) (hn : n < s.len) :
    ((s.node n).parent = none → (getWorld n s).1 = localSpecOf (s.node n)) ∧
    (∀ p, (s.node n).parent = some p →
      (getWorld n s).1 = (getWorld p s).1 * localSpecOf (s.node n)) := by
  have hwf := reachable_WF hs
  constructor
  · intro hp
    rw [getWorld_spec s hwf n hn, specWorld_root s n hn hp]
  · intro p hp
    have hpn : p < n := hwf.ordered n hn p hp
    rw [getWorld_spec s hwf n hn, getWorld_spec s hwf p (by omega),
      specWorld_parent s hwf.ordered n p hn hp]

theorem claim_C1_world_matrix_witness :
    Reachable sExBase ∧ 2 < sExBase.len ∧ (sExBase.node 2).parent = some 0 ∧
    (getWorld 2 sExBase).1 = (getWorld 0 sExBase).1 * localSpecOf (sExBase.node 2) :=
  ⟨⟨mbEx, msEx, opsExBase, rfl⟩, by decide, by decide,
    (claim_C1_world_matrix sExBase ⟨mbEx, msEx, opsExBase, rfl⟩ 2 (by decide)).2 0 (by decide)⟩

theorem stepSetLocal_len (n : Nat) (e : LocalEdit) (s : St) :
    (stepSetLocal n e s).len = s.len := by
  rw [stepSetLocal]
  by_cases hn : n < s.len
  · rw [if_pos hn]
    rfl
  · rw [if_neg hn]

theorem parentOf_editLocal (s : St) (n : Nat) (e : LocalEdit) :
    ∀ x, parentOf s x = parentOf (editNodeAt s n (applyLocalEdit e)) x := by
  intro x
  rw [parentOf, parentOf, editNodeAt_len, editNodeAt_node]
  by_cases hx : x < s.len
  · rw [if_pos hx, if_pos hx]
    by_cases he : x = n
    · rw [if_pos he, applyLocalEdit_parent, he]
    · rw [if_neg he]
  · rw [if_neg hx, if_neg hx]

theorem parentOf_markSubtree (u : St) (a : Nat) :
    ∀ x, parentOf u x = parentOf (markSubtreeDirty u a) x := by
  intro x
  rw [parentOf, parentOf, markSubtree_len, markSubtree_node]
  by_cases hx : x < u.len
  · rw [if_pos hx, if_pos hx]
    by_cases hmk : isAncSelfB u u.len a x = true
    · rw [if_pos hmk]
    · rw [if_neg hmk]
  · rw [if_neg hx, if_neg hx]

/-- Claim C2: mutating a node's local transform (which synchronously
fires the `transformChanged` listener inside the setter) marks the
node's own `WORLD_MATRIX` dirty bit and that of every member of its
descendant subtree, leaves the descendants' local transforms unchanged,
and every member's next `getWorldMatrix()` equals the mathematical
world matrix of the updated scene (it reflects the new ancestor
chain). -/
theorem claim_C2_transform_invalidation (s : St) (hs : Reachable s) (n : Nat) (e : LocalEdit)
    (hn : n < s.len) (m : Nat) (hm : m < s.len)
    (hsub : isAncSelfB s s.len n m = true) :
    ((stepSetLocal n e s).node m).worldDirty = true ∧
    (m ≠ n → localPartsEq ((stepSetLocal n e s).node m) (s.node m)) ∧
    (getWorld m (stepSetLocal n e s)).1 = specWorld (stepSetLocal n e s) m := by
  have hwf := reachable_WF hs
  have hwf' := WF_stepSetLocal s hwf n e
  have hlen := stepSetLocal_len n e s
  have hpar := parentOf_editLocal s n e
  have hsub' : isAncSelfB (editNodeAt s n (applyLocalEdit e)) s.len n m = true := by
    rw [← isAncSelfB_congr hpar s.len n m]
    exact hsub
  have hnodeEq : (stepSetLocal n e s).node m =
      { (editNodeAt s n (applyLocalEdit e)).node m with worldDirty := true } := by
    rw [stepSetLocal, if_pos hn]
    exact markSubtree_node_in _ n m hsub'
  refine ⟨?_, ?_, ?_⟩
  · rw [hnodeEq]
  · intro hne
    rw [hnodeEq, editNodeAt_node, if_neg hne]
    exact ⟨rfl, rfl, rfl⟩
  · exact getWorld_spec _ hwf' m (by rw [hlen]; exact hm)

theorem claim_C2_transform_invalidation_witness :
    Reachable sExBase ∧ 2 < sExBase.len ∧ 3 < sExBase.len ∧
    isAncSelfB sExBase sExBase.len 2 3 = true ∧
    (((stepSetLocal 2 (.scaleBy ⟨2, 2, 2⟩) sExBase).node 3).worldDirty = true ∧
      (3 ≠ 2 → localPartsEq ((stepSetLocal 2 (.scaleBy ⟨2, 2, 2⟩) sExBase).node 3)
        (sExBase.node 3)) ∧
      (getWorld 3 (stepSetLocal 2 (.scaleBy ⟨2, 2, 2⟩) sExBase)).1 =
        specWorld (stepSetLocal 2 (.scaleBy ⟨2, 2, 2⟩) sExBase) 3) :=
  ⟨⟨mbEx, msEx, opsExBase, rfl⟩, by decide, by decide, by decide,
    claim_C2_transform_invalidation sExBase ⟨mbEx, msEx, opsExBase, rfl⟩ 2 (.scaleBy ⟨2, 2, 2⟩)
      (by decide) 3 (by decide) (by decide)⟩

/-- Claim C3: moving a node from one parent to another (triggering
`parentChanged`) sets its parent pointer, marks its own and every
member of its (new) subtree's `WORLD_MATRIX` dirty bit, leaves every
member's local transform unchanged, and every member's next
`getWorldMatrix()` equals the mathematical world matrix of the
re-parented scene (it reflects the new ancestor chain). -/
theorem claim_C3_reparent_invalidation (s : St) (hs : Reachable s) (n : Nat) (po : Option Nat)
    (hn : n < s.len) (hok : parentArgOk n po = true) :
    ((stepSetParent n po s).node n).parent = po ∧
    ∀ m, m < s.len →
      isAncSelfB (stepSetParent n po s) (stepSetParent n po s).len n m = true →
      ((stepSetParent n po s).node m).worldDirty = true ∧
      localPartsEq ((stepSetParent n po s).node m) (s.node m) ∧
      (getWorld m (stepSetParent n po s)).1 = specWorld (stepSetParent n po s) m := by
  have hwf := reachable_WF hs
  have hwf' := WF_stepSetParent s hwf n po
  have hg : n < s.len ∧ parentArgOk n po = true := ⟨hn, hok⟩
  have hstep : stepSetParent n po s =
      markSubtreeDirty (editNodeAt s n (fun nd => { nd with parent := po })) n := by
    rw [stepSetParent, if_pos hg]
  have hlen : (stepSetParent n po s).len = s.len := by
    rw [hstep]
    rfl
  rw [hstep] at hwf' ⊢
  constructor
  · rw [markSubtree_node_in _ n n (isAncSelfB_self _ _ n), editNodeAt_node_self]
  · intro m hm hsub
    have hsub' : isAncSelfB (editNodeAt s n (fun nd => { nd with parent := po }))
        (editNodeAt s n (fun nd => { nd with parent := po })).len n m = true := by
      rw [isAncSelfB_congr (parentOf_markSubtree _ n) _ n m]
      exact hsub
    have hnodeEq := markSubtree_node_in _ n m hsub'
    refine ⟨?_, ?_, ?_⟩
    · rw [hnodeEq]
    · rw [hnodeEq]
      have hb : localPartsEq ((editNodeAt s n (fun nd => { nd with parent := po })).node m)
          (s.node m) := by
        rw [editNodeAt_node]
        by_cases he : m = n
        · subst he
          rw [if_pos rfl]
          exact ⟨rfl, rfl, rfl⟩
        · rw [if_neg he]
          exact ⟨rfl, rfl, rfl⟩
      exact hb
    · exact getWorld_spec _ hwf' m (by show m < s.len; exact hm)

theorem claim_C3_reparent_invalidation_witness :
    Reachable sExBase ∧ 2 < sExBase.len ∧ parentArgOk 2 (some 1) = true ∧
    (sExBase.node 2).parent = some 0 ∧
    ((stepSetParent 2 (some 1) sExBase).node 2).parent = some 1 ∧
    3 < sExBase.len ∧
    isAncSelfB (stepSetParent 2 (some 1) sExBase) (stepSetParent 2 (some 1) sExBase).len 2 3 =
      true ∧
    (((stepSetParent 2 (some 1) sExBase).node 3).worldDirty = true ∧
      localPartsEq ((stepSetParent 2 (some 1) sExBase).node 3) (sExBase.node 3) ∧
      (getWorld 3 (stepSetParent 2 (some 1) sExBase)).1 =
        specWorld (stepSetParent 2 (some 1) sExBase) 3) :=
  ⟨⟨mbEx, msEx, opsExBase, rfl⟩, by decide, by decide, by decide,
    (claim_C3_reparent_invalidation sExBase ⟨mbEx, msEx, opsExBase, rfl⟩ 2 (some 1)
      (by decide) (by decide)).1,
    by decide, by decide,
    (claim_C3_reparent_invalidation sExBase ⟨mbEx, msEx, opsExBase, rfl⟩ 2 (some 1)
      (by decide) (by decide)).2 3 (by decide) (by decide)⟩

/-- Claim C6: at every reachable state exactly one of the box/sphere
bounds caches is live, selected by the node's bounds type
(`cacheMatches`); `setBoundsType` to a different type discards the
previous cache (replacing it with the empty variant of the new type)
and marks `BOUNDS` dirty; and querying `getBoundingSphere` (or
`getBoundingBox`) before any model with volume data is attached returns
the empty/degenerate volume rather than crashing. -/
theorem claim_C6_bounds_exclusivity (s : St) (hs : Reachable s) (n : Nat) (bt : BoundsType)
    (hn : n < s.len) :
    cacheMatches (s.node n) ∧
    (bt ≠ (s.node n).boundsType →
      ((stepSetBoundsType n bt s).node n).bounds = emptyCacheFor bt ∧
      ((stepSetBoundsType n bt s).node n).boundsDirty = true) ∧
    ((s.node n).model = none →
      (queryBoundingSphere n s).1 = emptySphere ∧ (queryBoundingBox n s).1 = emptyBox) := by
  have hwf := reachable_WF hs
  refine ⟨hwf.boundsMatch n hn, ?_, ?_⟩
  · intro hne
    have hnodeEq : (stepSetBoundsType n bt s).node n =
        { s.node n with boundsType := bt, bounds := emptyCacheFor bt, boundsDirty := true } := by
      rw [stepSetBoundsType, if_pos hn, if_neg hne]
      exact editNodeAt_node_self s n _
    rw [hnodeEq]
    exact ⟨rfl, rfl⟩
  · intro hmo
    constructor
    · rw [queryBoundingSphere, if_pos hn]
      by_cases ht : (s.node n).boundsType = BoundsType.SPHERE
      · rw [if_pos ht]
        by_cases hd : (s.node n).boundsDirty
        · rw [if_pos hd]
          have hsc := getWorld_sameCore s hwf n
          have hmo2 : ((getWorld n s).2.node n).model = none := by
            rw [← coreEq_model (hsc.2 n)]
            exact hmo
          show sphereValue (getWorld n s).2 n (getWorld n s).1 = emptySphere
          rw [sphereValue, hmo2]
        · rw [if_neg hd]
          have hbe := hwf.boundsEmpty n hn (by simpa using hd) hmo
          rw [ht] at hbe
          show (match (s.node n).bounds with
                | .sphereB b => b
                | _ => emptySphere) = emptySphere
          rw [hbe]
          rfl
      · rw [if_neg ht]
    · rw [queryBoundingBox, if_pos hn]
      by_cases ht : (s.node n).boundsType = BoundsType.BOX
      · rw [if_pos ht]
        by_cases hd : (s.node n).boundsDirty
        · rw [if_pos hd]
          have hsc := getWorld_sameCore s hwf n
          have hmo2 : ((getWorld n s).2.node n).model = none := by
            rw [← coreEq_model (hsc.2 n)]
            exact hmo
          show boxValue (getWorld n s).2 n (getWorld n s).1 = emptyBox
          rw [boxValue, hmo2]
        · rw [if_neg hd]
          have hbe := hwf.boundsEmpty n hn (by simpa using hd) hmo
          rw [ht] at hbe
          show (match (s.node n).bounds with
                | .boxB b => b
                | _ => emptyBox) = emptyBox
          rw [hbe]
          rfl
      · rw [if_neg ht]

theorem claim_C6_bounds_exclusivity_witness :
    Reachable sExBase ∧ 1 < sExBase.len ∧ BoundsType.BOX ≠ (sExBase.node 1).boundsType ∧
    (sExBase.node 1).model = none ∧
    (cacheMatches (sExBase.node 1) ∧
      (BoundsType.BOX ≠ (sExBase.node 1).boundsType →
        ((stepSetBoundsType 1 BoundsType.BOX sExBase).node 1).bounds =
          emptyCacheFor BoundsType.BOX ∧
        ((stepSetBoundsType 1 BoundsType.BOX sExBase).node 1).boundsDirty = true) ∧
      ((sExBase.node 1).model = none →
        (queryBoundingSphere 1 sExBase).1 = emptySphere ∧
        (queryBoundingBox 1 sExBase).1 = emptyBox)) :=
  ⟨⟨mbEx, msEx, opsExBase, rfl⟩, by decide, by decide, by decide,
    claim_C6_bounds_exclusivity sExBase ⟨mbEx, msEx, opsExBase, rfl⟩ 1 BoundsType.BOX
      (by decide)⟩

theorem getRes_resApply (k : RKind) (r : Option Nat) (nd : NodeState) :
    getRes k (resApply k r nd) = r := by
  cases k <;> rfl

theorem stepSetRes_len (k : RKind) (n : Nat) (r : Option Nat) (s : St) :
    (stepSetRes k n r s).len = s.len := by
  rw [stepSetRes]
  by_cases hn : n < s.len
  · rw [if_pos hn]
    by_cases hsame : getRes k (s.node n) = r
    · rw [if_pos hsame]
    · rw [if_neg hsame]
      rfl
  · rw [if_neg hn]

theorem stepSetRes_node_self (k : RKind) (n : Nat) (r : Option Nat) (s : St) (hn : n < s.len)
    (hne : getRes k (s.node n) ≠ r) :
    (stepSetRes k n r s).node n = resApply k r (s.node n) := by
  rw [stepSetRes, if_pos hn, if_neg hne]
  show (editNodeAt s n (resApply k r)).node n = resApply k r (s.node n)
  exact editNodeAt_node_self s n (resApply k r)

theorem stepSetRes_noop (k : RKind) (n : Nat) (r : Option Nat) (s' : St)
    (h : getRes k (s'.node n) = r) : stepSetRes k n r s' = s' := by
  rw [stepSetRes]
  by_cases hn' : n < s'.len
  · rw [if_pos hn', if_pos h]
  · rw [if_neg hn']

theorem stepSetRes_refCount (k : RKind) (n : Nat) (r : Option Nat) (s : St) (hn : n < s.len)
    (hne : getRes k (s.node n) ≠ r) :
    (stepSetRes k n r s).refCount =
      acquireNew (releaseOld s.refCount k (getRes k (s.node n))) k r := by
  rw [stepSetRes, if_pos hn, if_neg hne]

theorem releaseOld_none (f : RKind → Nat → Nat) (k : RKind) : releaseOld f k none = f := rfl

theorem releaseOld_some (f : RKind → Nat → Nat) (k : RKind) (o : Nat) :
    releaseOld f k (some o) = refCountDec f k o := rfl

theorem acquireNew_none (f : RKind → Nat → Nat) (k : RKind) : acquireNew f k none = f := rfl

theorem acquireNew_some (f : RKind → Nat → Nat) (k : RKind) (j : Nat) :
    acquireNew f k (some j) = refCountInc f k j := rfl

theorem refCountInc_self (f : RKind → Nat → Nat) (k : RKind) (i : Nat) :
    refCountInc f k i k i = f k i + 1 := by
  rw [refCountInc, if_pos ⟨rfl, rfl⟩]

theorem refCountInc_ne (f : RKind → Nat → Nat) (k : RKind) (i : Nat) (k' : RKind) (i' : Nat)
    (h : ¬(k' = k ∧ i' = i)) : refCountInc f k i k' i' = f k' i' := by
  rw [refCountInc, if_neg h]

theorem refCountDec_self (f : RKind → Nat → Nat) (k : RKind) (i : Nat) :
    refCountDec f k i k i = f k i - 1 := by
  rw [refCountDec, if_pos ⟨rfl, rfl⟩]

theorem refCountDec_ne (f : RKind → Nat → Nat) (k : RKind) (i : Nat) (k' : RKind) (i' : Nat)
    (h : ¬(k' = k ∧ i' = i)) : refCountDec f k i k' i' = f k' i' := by
  rw [refCountDec, if_neg h]

/-- Claim C7: for every node and every resource kind (camera, light,
model, audio source, particle emitter): attaching a resource and then
attaching it again is a no-op (the second setter call does not change
the state at all, hence leaves the reference count unchanged); a setter
acquires a share of the new resource (+1) and releases the node's share
of the previously attached one (-1); and detaching (setting `NULL`)
after a single attach drops the node's held reference exactly once,
returning the count to its original value. -/
theorem claim_C7_resource_refcount (k : RKind) (s : St) (n : Nat) (i : Nat)
    (hn : n < s.len) (hnew : getRes k (s.node n) ≠ some i) :
    (∀ r : Option Nat, stepSetRes k n r (stepSetRes k n r s) = stepSetRes k n r s) ∧
    (stepSetRes k n (some i) s).refCount k i = s.refCount k i + 1 ∧
    (∀ o, getRes k (s.node n) = some o →
      (stepSetRes k n (some i) s).refCount k o = s.refCount k o - 1) ∧
    (stepSetRes k n none (stepSetRes k n (some i) s)).refCount k i =
      (stepSetRes k n (some i) s).refCount k i - 1 ∧
    (stepSetRes k n none (stepSetRes k n (some i) s)).refCount k i = s.refCount k i := by
  have hattach : (stepSetRes k n (some i) s).refCount k i = s.refCount k i + 1 := by
    rw [stepSetRes_refCount k n (some i) s hn hnew, acquireNew_some, refCountInc_self]
    cases hold : getRes k (s.node n) with
    | none => rw [releaseOld_none]
    | some o =>
      have hoi : o ≠ i := by
        intro he
        rw [he] at hold
        exact hnew hold
      rw [releaseOld_some,
        refCountDec_ne s.refCount k o k i (fun hcon => hoi hcon.2.symm)]
  have hs1node : getRes k ((stepSetRes k n (some i) s).node n) = some i := by
    rw [stepSetRes_node_self k n (some i) s hn hnew, getRes_resApply]
  have hdetach : (stepSetRes k n none (stepSetRes k n (some i) s)).refCount k i =
      (stepSetRes k n (some i) s).refCount k i - 1 := by
    rw [stepSetRes_refCount k n none (stepSetRes k n (some i) s)
        (by rw [stepSetRes_len]; exact hn) (by rw [hs1node]; simp),
      acquireNew_none, hs1node, releaseOld_some, refCountDec_self]
  refine ⟨?_, hattach, ?_, hdetach, ?_⟩
  · intro r
    apply stepSetRes_noop
    by_cases hsame : getRes k (s.node n) = r
    · rw [stepSetRes, if_pos hn, if_pos hsame]
      exact hsame
    · rw [stepSetRes_node_self k n r s hn hsame, getRes_resApply]
  · intro o hold
    have hoi : o ≠ i := by
      intro he
      rw [he] at hold
      exact hnew hold
    rw [stepSetRes_refCount k n (some i) s hn hnew, acquireNew_some,
      refCountInc_ne _ k i k o (fun hcon => hoi hcon.2), hold, releaseOld_some,
      refCountDec_self]
  · rw [hdetach, hattach]
    omega

theorem claim_C7_resource_refcount_witness :
    1 < sExBase.len ∧ getRes RKind.camera (sExBase.node 1) ≠ some 5 ∧
    ((∀ r : Option Nat,
        stepSetRes RKind.camera 1 r (stepSetRes RKind.camera 1 r sExBase) =
          stepSetRes RKind.camera 1 r sExBase) ∧
      (stepSetRes RKind.camera 1 (some 5) sExBase).refCount RKind.camera 5 =
        sExBase.refCount RKind.camera 5 + 1 ∧
      (∀ o, getRes RKind.camera (sExBase.node 1) = some o →
        (stepSetRes RKind.camera 1 (some 5) sExBase).refCount RKind.camera o =
          sExBase.refCount RKind.camera o - 1) ∧
      (stepSetRes RKind.camera 1 none
          (stepSetRes RKind.camera 1 (some 5) sExBase)).refCount RKind.camera 5 =
        (stepSetRes RKind.camera 1 (some 5) sExBase).refCount RKind.camera 5 - 1 ∧
      (stepSetRes RKind.camera 1 none
          (stepSetRes RKind.camera 1 (some 5) sExBase)).refCount RKind.camera 5 =
        sExBase.refCount RKind.camera 5) :=
  ⟨by decide, by decide,
    claim_C7_resource_refcount RKind.camera sExBase 1 5 (by decide) (by decide)⟩

/-- Claim C8: every camera-relative matrix query on a node — view,
inverse view, projection, view-projection, inverse view-projection,
world-view-projection and inverse-transpose world-view — returns the
identity matrix when no active camera exists in the owning scene. -/
theorem claim_C8_no_camera_identity (s : St) (n : Nat) (hc : s.activeCamera = none) :
    (getViewMatrixQ n s).1 = 1 ∧ (getInverseViewMatrixQ n s).1 = 1 ∧
    (getProjectionMatrixQ n s).1 = 1 ∧ (getViewProjectionMatrixQ n s).1 = 1 ∧
    (getInverseViewProjectionMatrixQ n s).1 = 1 ∧
    (getWorldViewProjectionMatrixQ n s).1 = 1 ∧
    (getInverseTransposeWorldViewMatrixQ n s).1 = 1 := by
  refine ⟨?_, ?_, ?_, ?_, ?_, ?_, ?_⟩ <;>
    simp [getViewMatrixQ, getInverseViewMatrixQ, getProjectionMatrixQ,
      getViewProjectionMatrixQ, getInverseViewProjectionMatrixQ,
      getWorldViewProjectionMatrixQ, getInverseTransposeWorldViewMatrixQ, hc]

theorem claim_C8_no_camera_identity_witness :
    sExBase.activeCamera = none ∧
    ((getViewMatrixQ 0 sExBase).1 = 1 ∧ (getInverseViewMatrixQ 0 sExBase).1 = 1 ∧
      (getProjectionMatrixQ 0 sExBase).1 = 1 ∧ (getViewProjectionMatrixQ 0 sExBase).1 = 1 ∧
      (getInverseViewProjectionMatrixQ 0 sExBase).1 = 1 ∧
      (getWorldViewProjectionMatrixQ 0 sExBase).1 = 1 ∧
      (getInverseTransposeWorldViewMatrixQ 0 sExBase).1 = 1) :=
  ⟨rfl, claim_C8_no_camera_identity sExBase 0 rfl⟩

/-! ### The search and error-handling claims -/

/-- Claim C5: `findNode(id, recursive, exactMatch)` checks this node's
own id first, then children in child-list order, descending (when
`recursive` is true) into each child before moving to the next sibling
— pre-order — and returns the first node whose identifier equals `id`
(`exactMatch = true`) or starts with `id` (`exactMatch = false`), or
`none`/NULL exactly when no visited node matches; with `recursive =
false` only the node itself and its direct children are scanned.
`findNodes` populates the output vector with all matches in the same
visitation order and returns the number of matches. -/
theorem claim_C5_find_preorder (t : NTree) (pat : String) (acc : List NTree) :
    (∀ ex, t.find pat true ex = t.preorder.find? (fun u => idMatches ex pat u.nid)) ∧
    (∀ ex, t.find pat false ex = (t :: t.childList).find? (fun u => idMatches ex pat u.nid)) ∧
    (∀ u : NTree, idMatches true pat u.nid = (u.nid == pat)) ∧
    (∀ u : NTree, idMatches false pat u.nid = List.isPrefixOf pat.data u.nid.data) ∧
    (∀ ex, t.find pat true ex = none ↔ ∀ u ∈ t.preorder, idMatches ex pat u.nid = false) ∧
    (∀ recursive ex, t.findNodes pat acc recursive ex =
      (acc ++ t.findAll pat recursive ex, (t.findAll pat recursive ex).length)) ∧
    (∀ ex, t.findAll pat true ex = t.preorder.filter (fun u => idMatches ex pat u.nid)) ∧
    (∀ ex, t.findAll pat false ex =
      (t :: t.childList).filter (fun u => idMatches ex pat u.nid)) := by
  refine ⟨fun ex => find_eq_preorder pat ex t, fun ex => find_false pat ex t, fun _ => rfl,
    fun _ => rfl, fun ex => ?_, fun _ _ => rfl, fun ex => findAll_eq_preorder pat ex t,
    fun ex => findAll_false pat ex t⟩
  rw [find_eq_preorder pat ex t]
  simp [List.find?_eq_none]

/-- The spec's section 8 scenario: `findNodes "arm"` with a recursive
prefix search on a tree containing "arm_left" and "arm_right" under
different ancestors finds both, count 2, in pre-order order. -/
theorem armTree_scenario :
    (armTree.findNodes "arm" [] true false).2 = 2 ∧
    (armTree.findNodes "arm" [] true false).1.map NTree.nid = ["arm_left", "arm_right"] := by
  exact ⟨rfl, rfl⟩

/-- Claim C9: `AudioSource::create(path)` returns NULL, rather than
raising, exactly when the audio source cannot be created from the file
at `path` (the environment decodes no buffer for it); on success it
returns a (non-NULL) newly created source holding the decoded buffer. -/
theorem claim_C9_audio_create_null (env : AudioEnv) (path : String) :
    (audioSourceCreate env path = none ↔ env path = none) ∧
    audioSourceCreate env path = (env path).map
      (fun b => { buffer := b, looped := false, gain := 1, pitch := 1, state := .INITIAL }) := by
  cases h : env path <;> simp [audioSourceCreate, h]

/-- Claim C10: `findNode`/`findNodes` with the optional arguments
omitted behave exactly as with `recursive = true` and
`exactMatch = true` (the declared defaults, `Node.h:92` and
`Node.h:105`): a full-subtree recursive pre-order search with exact
identifier matching. -/
theorem claim_C10_find_defaults (t : NTree) (pat : String) (acc : List NTree) :
    t.findDefault pat = t.find pat true true ∧
    t.findNodesDefault pat acc = t.findNodes pat acc true true ∧
    t.findDefault pat = t.preorder.find? (fun u => u.nid == pat) ∧
    (t.findNodesDefault pat acc).1 = acc ++ t.preorder.filter (fun u => u.nid == pat) ∧
    (t.findNodesDefault pat acc).2 = (t.preorder.filter (fun u => u.nid == pat)).length := by
  refine ⟨rfl, rfl, ?_, ?_, ?_⟩
  · rw [NTree.findDefault, find_eq_preorder]
    simp only [idMatches, if_true]
  · show acc ++ t.findAll pat true true = acc ++ t.preorder.filter (fun u => u.nid == pat)
    rw [findAll_eq_preorder]
    simp only [idMatches, if_true]
  · show (t.findAll pat true true).length =
      (t.preorder.filter (fun u => u.nid == pat)).length
    rw [findAll_eq_preorder]
    simp only [idMatches, if_true]

theorem tMat_zero : tMat ⟨0, 0, 0⟩ = 1 := by
  ext i j
  fin_cases i <;> fin_cases j <;> simp [tMat, Matrix.one_apply]

theorem rMat_id : rMat ⟨1, 0, 0, 0⟩ = 1 := by
  ext i j
  fin_cases i <;> fin_cases j <;> simp [rMat, Matrix.one_apply]

theorem sMat_one : sMat ⟨1, 1, 1⟩ = 1 := by
  ext i j
  fin_cases i <;> fin_cases j <;> simp [sMat, Matrix.one_apply]

theorem tMat_compose : tMat ⟨0, 5, 0⟩ * tMat ⟨1, 0, 0⟩ = tMat ⟨1, 5, 0⟩ := by
  ext i j
  fin_cases i <;> fin_cases j <;> simp [tMat, Matrix.mul_apply, Fin.sum_univ_four]

/-- The spec's section 8 world-matrix scenario, computed exactly: root
`R` with identity local transform has child `C` translated by
`(1,0,0)`; `R.getWorldMatrix() = identity`, `C.getWorldMatrix() =
translation(1,0,0)`; after translating `R` to `(0,5,0)`,
`C.getWorldMatrix() = translation(1,5,0)`. -/
theorem world_matrix_scenario :
    (getWorld 0 sScen).1 = 1 ∧
    (getWorld 1 sScen).1 = tMat ⟨1, 0, 0⟩ ∧
    (getWorld 1 sScen2).1 = tMat ⟨1, 5, 0⟩ := by
  have hwf : WF sScen := reachable_WF ⟨mbEx, msEx, opsScen, rfl⟩
  have hwf2 : WF sScen2 := WF_stepSetLocal sScen hwf 0 _
  have h0t : (sScen.node 0).t = ⟨0, 0, 0⟩ := by decide
  have h0r : (sScen.node 0).r = ⟨1, 0, 0, 0⟩ := by decide
  have h0s : (sScen.node 0).sc = ⟨1, 1, 1⟩ := by decide
  have h1t : (sScen.node 1).t = ⟨1, 0, 0⟩ := by decide
  have h1r : (sScen.node 1).r = ⟨1, 0, 0, 0⟩ := by decide
  have h1s : (sScen.node 1).sc = ⟨1, 1, 1⟩ := by decide
  have hroot0 : (sScen.node 0).parent = none := by decide
  have hparent1 : (sScen.node 1).parent = some 0 := by decide
  refine ⟨?_, ?_, ?_⟩
  · rw [getWorld_spec sScen hwf 0 (by decide), specWorld_root sScen 0 (by decide) hroot0,
      localSpecOf, h0t, h0r, h0s, rMat_id, sMat_one, tMat_zero, mul_one, mul_one]
  · rw [getWorld_spec sScen hwf 1 (by decide),
      specWorld_parent sScen hwf.ordered 1 0 (by decide) hparent1,
      specWorld_root sScen 0 (by decide) hroot0]
    simp only [localSpecOf]
    rw [h0t, h0r, h0s, h1t, h1r, h1s, rMat_id, sMat_one, tMat_zero]
    simp
  · have h0t2 : (sScen2.node 0).t = ⟨0, 5, 0⟩ := by decide
    have h0r2 : (sScen2.node 0).r = ⟨1, 0, 0, 0⟩ := by decide
    have h0s2 : (sScen2.node 0).sc = ⟨1, 1, 1⟩ := by decide
    have h1t2 : (sScen2.node 1).t = ⟨1, 0, 0⟩ := by decide
    have h1r2 : (sScen2.node 1).r = ⟨1, 0, 0, 0⟩ := by decide
    have h1s2 : (sScen2.node 1).sc = ⟨1, 1, 1⟩ := by decide
    have hroot02 : (sScen2.node 0).parent = none := by decide
    have hparent12 : (sScen2.node 1).parent = some 0 := by decide
    rw [getWorld_spec sScen2 hwf2 1 (by decide),
      specWorld_parent sScen2 hwf2.ordered 1 0 (by decide) hparent12,
      specWorld_root sScen2 0 (by decide) hroot02]
    simp only [localSpecOf]
    rw [h0t2, h0r2, h0s2, h1t2, h1r2, h1s2, rMat_id, sMat_one]
    simp only [mul_one, one_mul]
    exact tMat_compose

/-! ### Laziness under arbitrary non-invalidating intervening histories -/

theorem getWorldF_preserves_clean (n : Nat) :
    ∀ (fuel m : Nat) (t : St), (t.node n).worldDirty = false →
      ((getWorldF fuel m t).2).node n = t.node n
  | 0, _, _ => fun _ => rfl
  | fuel + 1, m, t => by
    intro hd
    rw [getWorldF]
    by_cases hm : m < t.len
    · rw [if_pos hm]
      by_cases hmd : (t.node m).worldDirty
      · rw [if_pos hmd]
        have hmn : n ≠ m := by
          intro he
          rw [he] at hd
          exact absurd hmd (by simp [hd])
        cases hp : (t.node m).parent with
        | none =>
          show (writeWorld t m (curLocal (t.node m))).node n = t.node n
          exact writeWorld_node_ne t m _ n hmn
        | some p =>
          have ih := getWorldF_preserves_clean n fuel p t hd
          show (writeWorld (getWorldF fuel p t).2 m
            ((getWorldF fuel p t).1 * curLocal ((getWorldF fuel p t).2.node m))).node n =
            t.node n
          rw [writeWorld_node_ne _ m _ n hmn, ih]
      · rw [if_neg hmd]
    · rw [if_neg hm]

theorem parentOf_editParent (s : St) (m : Nat) (po : Option Nat) :
    ∀ x, x ≠ m → parentOf s x = parentOf (editNodeAt s m (fun nd => { nd with parent := po })) x := by
  intro x hx
  rw [parentOf, parentOf, editNodeAt_len, editNodeAt_node, if_neg hx]

theorem isAncSelfB_congr_except (a : Nat) {s u : St}
    (hpar : ∀ x, x ≠ a → parentOf s x = parentOf u x) :
    ∀ (f m : Nat), isAncSelfB s f a m = isAncSelfB u f a m := by
  intro f
  induction f with
  | zero => intro m; rfl
  | succ f ihf =>
    intro m
    rw [isAncSelfB_succ, isAncSelfB_succ]
    by_cases h : a = m
    · rw [if_pos h, if_pos h]
    · rw [if_neg h, if_neg h, hpar m (fun he => h he.symm)]
      cases parentOf u m with
      | none => rfl
      | some p => exact ihf p

/-- A non-invalidating operation leaves node `n`'s cleared
`WORLD_MATRIX` bit cleared and its cached world matrix untouched. -/
theorem stepOp_nonInvalidating (n : Nat) (op : Op) (t : St) (hn : n < t.len)
    (hd : (t.node n).worldDirty = false) (hni : nonInvalidatingB n op t = true) :
    n < (stepOp op t).len ∧ ((stepOp op t).node n).worldDirty = false ∧
      ((stepOp op t).node n).world = (t.node n).world := by
  cases op with
  | addNode i =>
    simp only [stepOp]
    have hnode : (stepAddNode i t).node n = t.node n := by
      show (if n = t.len then { defaultNode with id := i } else t.node n) = t.node n
      rw [if_neg (by omega)]
    exact ⟨by show n < t.len + 1; omega, by rw [hnode]; exact hd, by rw [hnode]⟩
  | setLocal m e =>
    simp only [stepOp]
    have hfalse : isAncSelfB t t.len m n = false := by
      have h : (!isAncSelfB t t.len m n) = true := hni
      simpa using h
    rw [stepSetLocal]
    by_cases hm : m < t.len
    · rw [if_pos hm]
      have hu : isAncSelfB (editNodeAt t m (applyLocalEdit e)) t.len m n = false := by
        rw [← isAncSelfB_congr (parentOf_editLocal t m e) t.len m n]
        exact hfalse
      have hmn : m ≠ n := isAncSelfB_ne_of_false hfalse
      have hnode : (markSubtreeDirty (editNodeAt t m (applyLocalEdit e)) m).node n =
          t.node n := by
        rw [markSubtree_node_out _ m n hu, editNodeAt_node_ne t m _ n (Ne.symm hmn)]
      exact ⟨by show n < t.len; exact hn, by rw [hnode]; exact hd, by rw [hnode]⟩
    · rw [if_neg hm]
      exact ⟨hn, hd, rfl⟩
  | setParent m po =>
    simp only [stepOp]
    have hfalse : isAncSelfB t t.len m n = false := by
      have h : (!isAncSelfB t t.len m n) = true := hni
      simpa using h
    rw [stepSetParent]
    by_cases hg : m < t.len ∧ parentArgOk m po = true
    · rw [if_pos hg]
      have hu : isAncSelfB (editNodeAt t m (fun nd => { nd with parent := po })) t.len m n =
          false := by
        rw [← isAncSelfB_congr_except m (parentOf_editParent t m po) t.len n]
        exact hfalse
      have hmn : m ≠ n := isAncSelfB_ne_of_false hfalse
      have hnode :
          (markSubtreeDirty (editNodeAt t m (fun nd => { nd with parent := po })) m).node n =
          t.node n := by
        rw [markSubtree_node_out _ m n hu, editNodeAt_node_ne t m _ n (Ne.symm hmn)]
      exact ⟨by show n < t.len; exact hn, by rw [hnode]; exact hd, by rw [hnode]⟩
    · rw [if_neg hg]
      exact ⟨hn, hd, rfl⟩
  | queryWorld m =>
    simp only [stepOp]
    have hnode : ((getWorld m t).2).node n = t.node n :=
      getWorldF_preserves_clean n t.len m t hd
    have hlen : ((getWorld m t).2).len = t.len := getWorldF_len t.len m t
    exact ⟨by rw [hlen]; exact hn, by rw [hnode]; exact hd, by rw [hnode]⟩
  | setResource k m r =>
    simp only [stepOp]
    by_cases hm : m < t.len
    · by_cases hsame : getRes k (t.node m) = r
      · rw [stepSetRes_noop k m r t hsame]
        exact ⟨hn, hd, rfl⟩
      · have hnode : (stepSetRes k m r t).node n =
            if n = m then resApply k r (t.node m) else t.node n := by
          rw [stepSetRes, if_pos hm, if_neg hsame]
          exact editNodeAt_node t m (resApply k r) n
        refine ⟨by rw [stepSetRes_len]; exact hn, ?_, ?_⟩
        · rw [hnode]
          by_cases he : n = m
          · rw [if_pos he, resApply_worldDirty, ← he]
            exact hd
          · rw [if_neg he]
            exact hd
        · rw [hnode]
          by_cases he : n = m
          · rw [if_pos he, resApply_world, he]
          · rw [if_neg he]
    · rw [stepSetRes, if_neg hm]
      exact ⟨hn, hd, rfl⟩
  | setBounds m bt =>
    simp only [stepOp]
    by_cases hm : m < t.len
    · by_cases hb : bt = (t.node m).boundsType
      · rw [stepSetBoundsType, if_pos hm, if_pos hb]
        exact ⟨hn, hd, rfl⟩
      · have hst : stepSetBoundsType m bt t = editNodeAt t m
            (fun nd =>
              { nd with boundsType := bt, bounds := emptyCacheFor bt, boundsDirty := true }) := by
          rw [stepSetBoundsType, if_pos hm, if_neg hb]
        rw [hst]
        refine ⟨by show n < t.len; exact hn, ?_, ?_⟩
        · rw [editNodeAt_node]
          by_cases he : n = m
          · rw [if_pos he]
            show (t.node m).worldDirty = false
            rw [← he]
            exact hd
          · rw [if_neg he]
            exact hd
        · rw [editNodeAt_node]
          by_cases he : n = m
          · rw [if_pos he]
            show (t.node m).world = (t.node n).world
            rw [← he]
          · rw [if_neg he]
    · rw [stepSetBoundsType, if_neg hm]
      exact ⟨hn, hd, rfl⟩
  | queryBox m =>
    simp only [stepOp]
    rw [queryBoundingBox]
    by_cases hm : m < t.len
    · rw [if_pos hm]
      by_cases hbt : (t.node m).boundsType = BoundsType.BOX
      · rw [if_pos hbt]
        by_cases hbd : (t.node m).boundsDirty
        · rw [if_pos hbd]
          have hpc : ((getWorld m t).2).node n = t.node n :=
            getWorldF_preserves_clean n t.len m t hd
          have hlen2 : ((getWorld m t).2).len = t.len := getWorldF_len t.len m t
          refine ⟨by show n < ((getWorld m t).2).len; rw [hlen2]; exact hn, ?_, ?_⟩
          · rw [editNodeAt_node]
            by_cases he : n = m
            · rw [if_pos he]
              show (((getWorld m t).2).node m).worldDirty = false
              rw [he] at hpc
              rw [hpc, ← he]
              exact hd
            · rw [if_neg he, hpc]
              exact hd
          · rw [editNodeAt_node]
            by_cases he : n = m
            · rw [if_pos he]
              show (((getWorld m t).2).node m).world = (t.node n).world
              rw [he] at hpc
              rw [hpc, ← he]
            · rw [if_neg he, hpc]
        · rw [if_neg hbd]
          exact ⟨hn, hd, rfl⟩
      · rw [if_neg hbt]
        exact ⟨hn, hd, rfl⟩
    · rw [if_neg hm]
      exact ⟨hn, hd, rfl⟩
  | querySphere m =>
    simp only [stepOp]
    rw [queryBoundingSphere]
    by_cases hm : m < t.len
    · rw [if_pos hm]
      by_cases hbt : (t.node m).boundsType = BoundsType.SPHERE
      · rw [if_pos hbt]
        by_cases hbd : (t.node m).boundsDirty
        · rw [if_pos hbd]
          have hpc : ((getWorld m t).2).node n = t.node n :=
            getWorldF_preserves_clean n t.len m t hd
          have hlen2 : ((getWorld m t).2).len = t.len := getWorldF_len t.len m t
          refine ⟨by show n < ((getWorld m t).2).len; rw [hlen2]; exact hn, ?_, ?_⟩
          · rw [editNodeAt_node]
            by_cases he : n = m
            · rw [if_pos he]
              show (((getWorld m t).2).node m).worldDirty = false
              rw [he] at hpc
              rw [hpc, ← he]
              exact hd
            · rw [if_neg he, hpc]
              exact hd
          · rw [editNodeAt_node]
            by_cases he : n = m
            · rw [if_pos he]
              show (((getWorld m t).2).node m).world = (t.node n).world
              rw [he] at hpc
              rw [hpc, ← he]
            · rw [if_neg he, hpc]
        · rw [if_neg hbd]
          exact ⟨hn, hd, rfl⟩
      · rw [if_neg hbt]
        exact ⟨hn, hd, rfl⟩
    · rw [if_neg hm]
      exact ⟨hn, hd, rfl⟩
  | setActiveCamera c =>
    exact ⟨hn, hd, rfl⟩

/-- A whole non-invalidating history leaves node `n`'s cleared
`WORLD_MATRIX` bit cleared and its cached world matrix untouched. -/
theorem run_preserves_cleanWorld (n : Nat) :
    ∀ (ops : List Op) (t : St), n < t.len → (t.node n).worldDirty = false →
      nonInvalidatingRun n ops t = true →
      n < (run ops t).len ∧ ((run ops t).node n).worldDirty = false ∧
        ((run ops t).node n).world = (t.node n).world
  | [], _ => fun hn hd _ => ⟨hn, hd, rfl⟩
  | op :: ops, t => fun hn hd hni => by
    have hsplit : nonInvalidatingB n op t = true ∧
        nonInvalidatingRun n ops (stepOp op t) = true := by
      have h : (nonInvalidatingB n op t && nonInvalidatingRun n ops (stepOp op t)) = true := hni
      simp only [Bool.and_eq_true] at h
      exact h
    obtain ⟨hlen, hd', hw⟩ := stepOp_nonInvalidating n op t hn hd hsplit.1
    obtain ⟨h1, h2, h3⟩ := run_preserves_cleanWorld n ops (stepOp op t) hlen hd' hsplit.2
    exact ⟨h1, h2, h3.trans hw⟩

/-- Claim C4: between two consecutive `getWorldMatrix()` queries on the
same node, if no invalidating mutation — a local-transform edit or
hierarchy edit affecting the node or one of its ancestors — occurred in
between, then whatever other operations did occur in between (edits of
unrelated subtrees, node creation, resource attach/detach, bounds-type
switches, bounds queries, camera changes, world-matrix queries on other
nodes), the world matrix is not recomputed: the second query returns
the already-cached value of the first and changes nothing at all — in
particular the recomputation counter is unchanged. -/
theorem claim_C4_laziness (s : St) (n : Nat) (ops : List Op) (hn : n < s.len)
    (hni : nonInvalidatingRun n ops (getWorld n s).2 = true) :
    getWorld n (run ops (getWorld n s).2) =
      ((getWorld n s).1, run ops (getWorld n s).2) ∧
    (getWorld n (run ops (getWorld n s).2)).2.count = (run ops (getWorld n s).2).count := by
  have h0 : ((getWorld n s).2.node n).worldDirty = false ∧
      ((getWorld n s).2.node n).world = (getWorld n s).1 :=
    getWorldF_final s.len n s (by omega) hn
  have hlen0 : ((getWorld n s).2).len = s.len := getWorldF_len s.len n s
  obtain ⟨hl1, hd1, hw1⟩ := run_preserves_cleanWorld n ops (getWorld n s).2
    (by rw [hlen0]; exact hn) h0.1 hni
  have hsecond : getWorld n (run ops (getWorld n s).2) =
      (((run ops (getWorld n s).2).node n).world, run ops (getWorld n s).2) := by
    unfold getWorld
    exact getWorldF_clean _ n _ (Nat.lt_of_le_of_lt (Nat.zero_le n) hl1) hl1 hd1
  constructor
  · rw [hsecond, hw1, h0.2]
  · rw [hsecond]

theorem claim_C4_laziness_witness :
    3 < sExBase.len ∧
    nonInvalidatingRun 3 opsLazyEx (getWorld 3 sExBase).2 = true ∧
    (getWorld 3 (run opsLazyEx (getWorld 3 sExBase).2) =
        ((getWorld 3 sExBase).1, run opsLazyEx (getWorld 3 sExBase).2) ∧
      (getWorld 3 (run opsLazyEx (getWorld 3 sExBase).2)).2.count =
        (run opsLazyEx (getWorld 3 sExBase).2).count) :=
  ⟨by decide, by decide,
    claim_C4_laziness sExBase 3 opsLazyEx (by decide) (by decide)⟩

end GamePlaySpec
